import Mathlib

/-!
Verification of the gophc PHC string-format codec.

The Go sources are embedded shallowly over byte strings: a Go `string` or
`[]byte` becomes a `List Nat` of byte values (all relevant inputs are ASCII,
where `Char.toNat` agrees with the UTF-8 byte), machine integers become `Nat`
with explicit bounds, and fallible functions return `Option`/`Except`.
-/

namespace Gophc

/-- Byte string of an ASCII Lean string literal (each char's code point; for
the ASCII data handled by gophc this coincides with the UTF-8 bytes Go sees). -/
def asB (s : String) : List Nat := s.data.map Char.toNat

/-! ## Base64 codec

Embeds `Base64Encode`, `Base64Decode`, `Base64DecodeNotStrict` from the final
version of the base64 handler in `argon2.go` together with the semantics of
Go's `encoding/base64` for an unpadded custom-alphabet encoding:
the alphabet is `A-Za-z0-9+/`, input is consumed in 4-byte groups, a final
group of 2 (resp. 3) symbols yields 1 (resp. 2) bytes, a final group of 1
symbol is a corrupt-input error, and in strict mode the unused trailing bits
of the final symbol must be zero. Go's `decodeQuantum` additionally skips
carriage-return and line-feed bytes anywhere in the input without consuming
a quantum slot, so decoding a byte string equals running the quantum decoder
on the string with the bytes 10 and 13 removed. -/

/-- Index of a byte in the alphabet `A-Za-z0-9+/` (none if not in the alphabet). -/
def alphabetIdx (b : Nat) : Option Nat :=
  if 65 ≤ b ∧ b ≤ 90 then some (b - 65)        -- A-Z ↦ 0..25
  else if 97 ≤ b ∧ b ≤ 122 then some (b - 71)  -- a-z ↦ 26..51
  else if 48 ≤ b ∧ b ≤ 57 then some (b + 4)    -- 0-9 ↦ 52..61
  else if b = 43 then some 62                  -- +
  else if b = 47 then some 63                  -- /
  else none

/-- Alphabet byte of a 6-bit index. -/
def idxChar (i : Nat) : Nat :=
  if i < 26 then i + 65
  else if i < 52 then i + 71
  else if i < 62 then i - 4
  else if i = 62 then 43
  else if i = 63 then 47
  else 0

/-- `Base64Encode`: unpadded base64 encoding of a byte sequence. -/
def base64EncodeBytes : List Nat → List Nat
  | b1 :: b2 :: b3 :: rest =>
    idxChar (b1 / 4) :: idxChar (b1 % 4 * 16 + b2 / 16) ::
      idxChar (b2 % 16 * 4 + b3 / 64) :: idxChar (b3 % 64) :: base64EncodeBytes rest
  | [b1, b2] => [idxChar (b1 / 4), idxChar (b1 % 4 * 16 + b2 / 16), idxChar (b2 % 16 * 4)]
  | [b1] => [idxChar (b1 / 4), idxChar (b1 % 4 * 16)]
  | [] => []

/-- `base64DecodeFromEncoding`: unpadded base64 decoding; `strict` selects the
strict encoding which additionally rejects non-zero trailing padding bits. -/
def base64DecodeBytes (strict : Bool) : List Nat → Option (List Nat)
  | [] => some []
  | [_] => none  -- length mod 4 == 1: corrupt input
  | [c1, c2] =>
    match alphabetIdx c1, alphabetIdx c2 with
    | some i1, some i2 =>
      if strict ∧ i2 % 16 ≠ 0 then none else some [i1 * 4 + i2 / 16]
    | _, _ => none
  | [c1, c2, c3] =>
    match alphabetIdx c1, alphabetIdx c2, alphabetIdx c3 with
    | some i1, some i2, some i3 =>
      if strict ∧ i3 % 4 ≠ 0 then none
      else some [i1 * 4 + i2 / 16, i2 % 16 * 16 + i3 / 4]
    | _, _, _ => none
  | c1 :: c2 :: c3 :: c4 :: rest =>
    match alphabetIdx c1, alphabetIdx c2, alphabetIdx c3, alphabetIdx c4 with
    | some i1, some i2, some i3, some i4 =>
      match base64DecodeBytes strict rest with
      | some bs => some ((i1 * 4 + i2 / 16) :: (i2 % 16 * 16 + i3 / 4) :: (i3 % 4 * 64 + i4) :: bs)
      | none => none
    | _, _, _, _ => none

/-- The carriage-return and line-feed bytes that `decodeQuantum` skips,
removed from the input before the quantum groups are formed. -/
def dropNewlineBytes (s : List Nat) : List Nat :=
  s.filter (fun c => !(c = 10 || c = 13))

/-- `Base64Decode`: strict decoding (the default handler `DefaultBase64`). -/
def Base64Decode (src : List Nat) : Option (List Nat) :=
  base64DecodeBytes true (dropNewlineBytes src)

/-- `Base64DecodeNotStrict`: decoding that allows non-zero trailing padding bits. -/
def Base64DecodeNotStrict (src : List Nat) : Option (List Nat) :=
  base64DecodeBytes false (dropNewlineBytes src)

/-- The unused trailing bits carried by the final symbol of an unpadded base64
string: for length 2 mod 4 the last symbol contributes only its top 2 bits
(low 4 bits are padding), for length 3 mod 4 only its top 4 bits (low 2 bits
are padding); otherwise there are no padding bits. -/
def finalTrailingBits (s : List Nat) : Nat :=
  match s.length % 4, s.getLast? with
  | 2, some c => ((alphabetIdx c).getD 0) % 16
  | 3, some c => ((alphabetIdx c).getD 0) % 4
  | _, _ => 0

/-- All bytes of `s` are alphabet symbols. -/
def validB64 (s : List Nat) : Bool := s.all (fun c => (alphabetIdx c).isSome)

/-! ## utils.go: decimal parsing and `writeSaltAndHash` -/

/-- ASCII digit `0`-`9`. -/
def isDigitByte (b : Nat) : Bool := decide (48 ≤ b ∧ b ≤ 57)

/-- ASCII digit `1`-`9`. -/
def isNonzeroDigitByte (b : Nat) : Bool := decide (49 ≤ b ∧ b ≤ 57)

/-- Numeric value of a string of ASCII digits (most significant first),
as computed by `strconv.Atoi` on its digit run. -/
def bytesVal (l : List Nat) : Nat := l.foldl (fun a c => 10 * a + (c - 48)) 0

/-- The regex branch `0`: the literal string `"0"`. -/
def matchesZero (s : List Nat) : Bool := s == [48]

/-- The regex branch `-[1-9]\d*`. -/
def matchesNegNum : List Nat → Bool
  | c :: c2 :: cs => (c == 45) && isNonzeroDigitByte c2 && cs.all isDigitByte
  | _ => false

/-- The regex branch `[1-9]\d*`. -/
def matchesPosNum : List Nat → Bool
  | c :: cs => isNonzeroDigitByte c && cs.all isDigitByte
  | [] => false

/-- Whole-string match of the anchored regex `^(0|-[1-9]\d*|[1-9]\d*)$`
(`phcDecimalRx`): the alternation of its three branches. -/
def phcDecimalMatches (s : List Nat) : Bool :=
  matchesZero s || matchesNegNum s || matchesPosNum s

/-- Whole-string match of the anchored regex `^(0|[1-9]\d*)$`
(`phcPositiveDecimalRx`). -/
def phcPositiveDecimalMatches (s : List Nat) : Bool :=
  matchesZero s || matchesPosNum s

/-- Model of `strconv.Atoi` restricted to strings of the shape
`-?[0-9]+` (the only shapes `ParsePHCDecimal` feeds it): the signed decimal
value, or `none` on a range error. The platform `int` is modelled as 64-bit,
matching `maxInt = int(^uint(0) >> 1) = 2^63 - 1` in the source. -/
def atoiInt : List Nat → Option Int
  | [] => none
  | c :: ds =>
    if c = 45 then
      -- negative: range error below -2^63
      if (bytesVal ds : Int) > 2 ^ 63 then none else some (-(bytesVal ds : Int))
    else
      -- non-negative: range error above 2^63 - 1
      if (bytesVal (c :: ds) : Int) > 2 ^ 63 - 1 then none else some ((bytesVal (c :: ds) : Int))

/-- `ParsePHCDecimal`: match against `phcDecimalRx`, then convert with `Atoi`. -/
def ParsePHCDecimal (input : List Nat) : Option Int :=
  if phcDecimalMatches input then atoiInt input else none

/-- `ParsePHCPositiveDecimal`: match against `phcPositiveDecimalRx`, then `Atoi`. -/
def ParsePHCPositiveDecimal (input : List Nat) : Option Int :=
  if phcPositiveDecimalMatches input then atoiInt input else none

/-- Result of `writeSaltAndHash`: the bytes written to the writer, the
returned write count `n`, and whether an error was returned. The writer is a
`strings.Builder` (as in `EncodeString`), whose writes never fail. -/
structure WriteResult where
  out : List Nat
  n : Nat
  err : Bool
deriving DecidableEq

/-- `writeSaltAndHash`: writes `$<salt>` and then, if the hash is non-empty,
`$<hash>`; an empty salt with a non-empty hash is an error with nothing
written. Byte 36 is the dollar sign. -/
def writeSaltAndHash (salt hash : List Nat) : WriteResult :=
  if salt = [] then
    if hash ≠ [] then ⟨[], 0, true⟩
    else ⟨[], 0, false⟩
  else
    let w := (36 :: salt) ++ (if hash ≠ [] then 36 :: hash else [])
    ⟨w, w.length, false⟩

/-! ## function_schema.go: the generic schema-driven decoder -/

/-- Messages of the invalid-structure errors produced by `PHCSchema.Decode`. -/
inductive StructMsg where
  | mustBegin          -- "phc string must begin with \"$\""
  | consecutiveDollar  -- "found two consecutive '$' in string"
  | tooMany            -- "to many '$' in input string"
deriving DecidableEq

/-- The error taxonomy surfaced by the schema decoder (each constructor embeds
one of the wrapped sentinel errors of the source, with the context it carries). -/
inductive PHCErr where
  | invalidStructure (msg : StructMsg)
  | mismatchedFunctionName (got : List Nat)
  | missingParameterValue (param : List Nat)
  | nonOptionalParameterMissing (param : List Nat)
  | parameterValueValidation (param : List Nat)
  | unmatchedParameterName (param : List Nat)
  | base64DecodeError (isSalt : Bool)
  | internalError
deriving DecidableEq

/-- `ParameterValuePair`: a realized parameter. -/
structure ParameterValuePair where
  Name : List Nat
  Value : List Nat
  IsSet : Bool
deriving DecidableEq

/-- Modelled from the spec: `isValidParameterValueRune` is referenced by
`ValueCharacterValidator` but its definition is not among the provided source
files. Per the spec (§4.3 and the wire grammar) the default validator rejects
any character outside `[A-Za-z0-9/+.-]`. -/
def isValidParameterValueRune (c : Nat) : Bool :=
  decide ((65 ≤ c ∧ c ≤ 90) ∨ (97 ≤ c ∧ c ≤ 122) ∨ (48 ≤ c ∧ c ≤ 57) ∨
    c = 47 ∨ c = 43 ∨ c = 46 ∨ c = 45)

/-- `ValueCharacterValidator`: the default value validator; passes iff every
byte of the value is a valid parameter-value character (vacuously true on the
empty value). -/
def ValueCharacterValidator (value : List Nat) : Bool := value.all isValidParameterValueRune

/-- `NoValueValidator`: accepts every value. -/
def NoValueValidator : List Nat → Bool := fun _ => true

/-- `PHCParameterDescription`: one named slot of a schema. A `none` validator
stands for the nil Go function pointer, replaced by the default validator. -/
structure PHCParameterDescription where
  Name : List Nat
  Default : List Nat
  Optional : Bool
  ValidateValue : Option (List Nat → Bool)

/-- `GetValueValidatorFunc`: the description's validator, defaulting to
`ValueCharacterValidator`. -/
def PHCParameterDescription.GetValueValidatorFunc
    (description : PHCParameterDescription) : List Nat → Bool :=
  description.ValidateValue.getD ValueCharacterValidator

/-- `PHCSchema`: accepted function names, ordered descriptors and the base64
decoder used for salt/hash. -/
structure PHCSchema where
  FunctionNames : List (List Nat)
  ParameterDescriptions : List PHCParameterDescription
  Decoder : List Nat → Option (List Nat)

/-- `PHCInstance`: the decoded structured form. -/
structure PHCInstance where
  Function : List Nat
  Salt : List Nat
  SaltString : List Nat
  Hash : List Nat
  HashString : List Nat
  Parameters : List ParameterValuePair
deriving DecidableEq

/-- The zero value of `PHCInstance` (Go's `PHCInstance{}`). -/
def emptyInstance : PHCInstance := ⟨[], [], [], [], [], []⟩

/-- `parseParameter`: split `name=value` at the first `=` (byte 61); a token
without `=` is a missing-parameter-value error. No validation happens here. -/
def parseParameter (s : List Nat) : Except PHCErr ParameterValuePair :=
  let name := s.takeWhile (fun c => ¬(c = 61))
  if name.length = s.length then .error (.missingParameterValue s)
  else .ok ⟨name, s.drop (name.length + 1), true⟩

/-- Helper of `parseParameters`: parse each comma-separated token, stopping at
the first error. -/
def parseParameterList : List (List Nat) → Except PHCErr (List ParameterValuePair)
  | [] => .ok []
  | sub :: rest =>
    match parseParameter sub with
    | .error e => .error e
    | .ok p =>
      match parseParameterList rest with
      | .error e => .error e
      | .ok ps => .ok (p :: ps)

/-- `parseParameters`: split the parameter segment on `,` (byte 44) and parse
each token. -/
def parseParameters (s : List Nat) : Except PHCErr (List ParameterValuePair) :=
  parseParameterList (s.splitOn 44)

/-- `matchParameters`: the positional lock-step matching of parsed parameters
against the schema's descriptors (the two indices of the source loop become
structural recursion on the two lists). -/
def PHCSchema.matchParameters (schema : PHCSchema) :
    List PHCParameterDescription → List ParameterValuePair →
    Except PHCErr (List ParameterValuePair)
  | [], [] => .ok []
  | [], nextParsed :: _ => .error (.unmatchedParameterName nextParsed.Name)
  | nextDescription :: ds, [] =>
    -- parsed parameters exhausted: remaining descriptions must be optional
    if nextDescription.Optional then
      match schema.matchParameters ds [] with
      | .error e => .error e
      | .ok res => .ok (⟨nextDescription.Name, nextDescription.Default, false⟩ :: res)
    else .error (.nonOptionalParameterMissing nextDescription.Name)
  | nextDescription :: ds, nextParsed :: ps =>
    if nextDescription.Name = nextParsed.Name then
      -- a match: validate the value, keep the parsed pair, advance both
      if nextDescription.GetValueValidatorFunc nextParsed.Value then
        match schema.matchParameters ds ps with
        | .error e => .error e
        | .ok res => .ok (nextParsed :: res)
      else .error (.parameterValueValidation nextDescription.Name)
    else
      -- no match: the current description must be optional; advance only it
      if nextDescription.Optional then
        match schema.matchParameters ds (nextParsed :: ps) with
        | .error e => .error e
        | .ok res => .ok (⟨nextDescription.Name, nextDescription.Default, false⟩ :: res)
      else .error (.nonOptionalParameterMissing nextDescription.Name)

/-- Salt/hash phase of `PHCSchema.Decode`: decode the remaining `$`-separated
segments (salt, then hash), flagging leftovers as a structural error. The
instance accumulates the fields set before any failure, exactly as the source
mutates `res` before each `return res, err`. -/
def PHCSchema.decodeSaltHash (schema : PHCSchema) (inst : PHCInstance) :
    List (List Nat) → PHCInstance × Option PHCErr
  | [] => (inst, none)
  | salt :: rest =>
    let inst1 := { inst with SaltString := salt }
    match schema.Decoder salt with
    | none => (inst1, some (.base64DecodeError true))
    | some saltDecoded =>
      let inst2 := { inst1 with Salt := saltDecoded }
      match rest with
      | [] => (inst2, none)
      | hash :: rest2 =>
        let inst3 := { inst2 with HashString := hash }
        match schema.Decoder hash with
        | none => (inst3, some (.base64DecodeError false))
        | some hashDecoded =>
          let inst4 := { inst3 with Hash := hashDecoded }
          if rest2 = [] then (inst4, none)
          else (inst4, some (.invalidStructure .tooMany))

/-- Parameter phase of `PHCSchema.Decode`: if the first remaining segment
contains `=` it is the parameter list; then the parsed parameters are matched
against the descriptors and the tail is handed to the salt/hash phase. -/
def PHCSchema.decodeParamsAndTail (schema : PHCSchema) (res1 : PHCInstance) :
    List (List Nat) → PHCInstance × Option PHCErr
  | [] =>
    match schema.matchParameters schema.ParameterDescriptions [] with
    | .error e => (res1, some e)
    | .ok finalParams => schema.decodeSaltHash { res1 with Parameters := finalParams } []
  | seg :: rs =>
    if seg.any (fun c => c = 61) then
      match parseParameters seg with
      | .error e => (res1, some e)
      | .ok parsedParameters =>
        match schema.matchParameters schema.ParameterDescriptions parsedParameters with
        | .error e => (res1, some e)
        | .ok finalParams => schema.decodeSaltHash { res1 with Parameters := finalParams } rs
    else
      match schema.matchParameters schema.ParameterDescriptions [] with
      | .error e => (res1, some e)
      | .ok finalParams => schema.decodeSaltHash { res1 with Parameters := finalParams } (seg :: rs)

/-- `PHCSchema.Decode`: requires a leading `$`, splits the remainder on `$`,
rejects empty segments, matches the function name, then parses parameters and
salt/hash. Mirrors Go's two return values `(PHCInstance, error)`. -/
def PHCSchema.Decode (schema : PHCSchema) (s : List Nat) : PHCInstance × Option PHCErr :=
  match s with
  | [] => (emptyInstance, some (.invalidStructure .mustBegin))
  | c :: s1 =>
    if c = 36 then
      let split := s1.splitOn 36
      if split.any (fun sub => sub = []) then
        (emptyInstance, some (.invalidStructure .consecutiveDollar))
      else
        match split with
        | [] => (emptyInstance, some (.invalidStructure .consecutiveDollar)) -- splitOn is never empty
        | functionName :: rest =>
          if schema.FunctionNames.any (fun n => n = functionName) then
            schema.decodeParamsAndTail { emptyInstance with Function := functionName } rest
          else (emptyInstance, some (.mismatchedFunctionName functionName))
    else (emptyInstance, some (.invalidStructure .mustBegin))

/-! ## argon2.go (schema-based variant): `Argon2Schema`, `DecodeArgon2`,
`Argon2PHC.ValidateParameters` -/

/-- `defaultArgon2Version`: 0x10 = 16. -/
def defaultArgon2Version : Nat := 16

/-- `Argon2Versions`: the known argon2 versions 16 (1.0) and 19 (1.3). -/
def Argon2Versions : List Nat := [16, 19]

/-- `isValidArgon2Version`. -/
def isValidArgon2Version (v : Nat) : Bool := Argon2Versions.any (fun c => c = v)

/-- Byte strings of the variant names `argon2id`, `argon2i`, `argon2d`. -/
def argon2idB : List Nat := [97, 114, 103, 111, 110, 50, 105, 100]
def argon2iB : List Nat := [97, 114, 103, 111, 110, 50, 105]
def argon2dB : List Nat := [97, 114, 103, 111, 110, 50, 100]

/-- `Argon2Variants`: `argon2id`, `argon2i`, `argon2d` in source order. -/
def Argon2Variants : List (List Nat) := [argon2idB, argon2iB, argon2dB]

/-- `isValidArgon2Variant`. -/
def isValidArgon2Variant (v : List Nat) : Bool := Argon2Variants.any (fun c => c = v)

/-- Parameter-name bytes: `v`, `m`, `t`, `p`. -/
def vNameB : List Nat := [118]
def mNameB : List Nat := [109]
def tNameB : List Nat := [116]
def pNameB : List Nat := [112]

/-- `Argon2PHC` of the schema-based variant: `Version`, `M`, `T` are `uint32`
and `P` is `uint8`, modelled as `Nat` bounded at parse time. -/
structure Argon2PHC where
  Variant : List Nat
  Version : Nat
  M : Nat
  T : Nat
  P : Nat
deriving DecidableEq

/-- Modelled from the spec: `decodeNoneZeroUnsignedString` is called by
`argon2FromStringParams` but its definition is not among the provided source
files. Per spec §4.1 it is fixed-bit-width unsigned decimal parsing with a
strict/non-strict toggle: non-strict permits standard integer parsing without
the minimality (no-leading-zero) check, and the value must fit the declared
bit width. All call sites here use the non-strict mode. -/
def decodeNoneZeroUnsignedString (s : List Nat) (strict : Bool) (bitSize : Nat) : Option Nat :=
  if s = [] then none
  else if s.all isDigitByte then
    if strict ∧ s.head? = some 48 ∧ s.length ≠ 1 then none
    else if bytesVal s < 2 ^ bitSize then some (bytesVal s) else none
  else none

/-- `Argon2PHC.ValidateParameters` (schema-based variant): valid variant, a
known version, and positive `m`, `t`, `p`. -/
def Argon2PHC.ValidateParameters (phc : Argon2PHC) : Option PHCErr :=
  if ¬isValidArgon2Variant phc.Variant then some (.mismatchedFunctionName phc.Variant)
  else if ¬isValidArgon2Version phc.Version then some (.parameterValueValidation vNameB)
  else if phc.M < 1 then some (.parameterValueValidation mNameB)
  else if phc.T < 1 then some (.parameterValueValidation tNameB)
  else if phc.P < 1 then some (.parameterValueValidation pNameB)
  else none

/-- `Argon2Schema`: optional `v` defaulting to `"16"`, required `m`, `t`, `p`,
all with `NoValueValidator`; the strict default base64 decoder. -/
def Argon2Schema : PHCSchema :=
  { FunctionNames := Argon2Variants
    ParameterDescriptions :=
      [⟨vNameB, [49, 54], true, some NoValueValidator⟩,  -- default "16"
       ⟨mNameB, [], false, some NoValueValidator⟩,
       ⟨tNameB, [], false, some NoValueValidator⟩,
       ⟨pNameB, [], false, some NoValueValidator⟩]
    Decoder := fun src => Base64Decode src }

/-- `argon2FromStringParams`: convert the matched parameter pairs into an
`Argon2PHC`, parsing `v`, `m`, `t` as `uint32` and `p` as `uint8`. -/
def argon2FromStringParams (variant : List Nat)
    (versionParam mParam tParam pParam : ParameterValuePair) : Except PHCErr Argon2PHC :=
  if ¬isValidArgon2Variant variant then .error (.mismatchedFunctionName variant)
  else
    match decodeNoneZeroUnsignedString versionParam.Value false 32 with
    | none => .error (.parameterValueValidation versionParam.Name)
    | some version =>
      match decodeNoneZeroUnsignedString mParam.Value false 32 with
      | none => .error (.parameterValueValidation mParam.Name)
      | some m =>
        match decodeNoneZeroUnsignedString tParam.Value false 32 with
        | none => .error (.parameterValueValidation tParam.Name)
        | some t =>
          match decodeNoneZeroUnsignedString pParam.Value false 8 with
          | none => .error (.parameterValueValidation pParam.Name)
          | some p => .ok ⟨variant, version, m, t, p⟩

/-- `DecodeArgon2`: schema decode, assert exactly four matched parameters,
then build the `Argon2PHC`. -/
def DecodeArgon2 (phcString : List Nat) : Except PHCErr Argon2PHC :=
  match Argon2Schema.Decode phcString with
  | (_, some e) => .error e
  | (inst, none) =>
    match inst.Parameters with
    | [vParam, mParam, tParam, pParam] =>
      argon2FromStringParams inst.Function vParam mParam tParam pParam
    | _ => .error .internalError  -- "internal error: expected exactly ..." assertion

/-! ## argon2.go (regex-based variant): `DecodeArgon2PHC` / `Argon2PHC.Encode`

This embeds the version whose anchored regex is

`^\$(argon2id|argon2i|argon2d)\$m=(0|[1-9]\d{0,9}),t=(0|[1-9]\d{0,9}),p=(0|[1-9]\d{0,2})`
`(?:,keyid=([A-Za-z0-9+/]{0,11}))?(?:,data=([A-Za-z0-9+/]{0,43}))?`
`(?:\$([A-Za-z0-9+/]{11,64}))?(?:\$([A-Za-z0-9+/]{16,86}))?$`

as a deterministic parser. Go's regexp uses leftmost-first (preference)
semantics; the parser below is equivalent because every backtracking
alternative of this particular pattern is a dead end:

* the variant alternatives are tried in source order, and after the variant
  the pattern requires `$`, which can extend none of the names to another;
* each numeral group is followed by a literal that starts with a non-digit,
  so the greedy digit run cannot be usefully shortened, and the alternative
  `0` matches exactly when the maximal run is `"0"`;
* a keyid/data/salt/hash group is followed (via every continuation of the
  pattern) by `,`, `$` or the end, none of which is an alphabet byte, so the
  greedy alphabet run is maximal and cannot be usefully shortened, and a
  present `,keyid=`/`,data=` literal cannot be re-read by any later part;
* the only live choice is a lone `$`-segment whose run has length 16..64 and
  could be salt or hash: preference picks the earlier group (salt). -/
namespace ArgonRegex

open Gophc

/-- The literal tokens `$m=`, `,t=`, `,p=`, `,keyid=`, `,data=` of the regex. -/
def mLitB : List Nat := [36, 109, 61]
def tLitB : List Nat := [44, 116, 61]
def pLitB : List Nat := [44, 112, 61]
def keyidLitB : List Nat := [44, 107, 101, 121, 105, 100, 61]
def dataLitB : List Nat := [44, 100, 97, 116, 97, 61]

/-- Consume an expected literal token from the front of the input. -/
def dropTok : List Nat → List Nat → Option (List Nat)
  | [], s => some s
  | _, [] => none
  | t :: ts, c :: cs => if t = c then dropTok ts cs else none

/-- One numeral group `0|[1-9]\d{0,maxDigits-1}` together with its greedy-run
determinism: take the maximal digit run; it must be non-empty, at most
`maxDigits` long, and without a leading zero unless it is exactly `0`.
Returns the `strconv.Atoi` value of the run and the rest of the input. -/
def parsePHCNum (maxDigits : Nat) (s : List Nat) : Option (Nat × List Nat) :=
  let ds := s.takeWhile isDigitByte
  if ds = [] then none
  else if maxDigits < ds.length then none
  else if ds.head? = some 48 ∧ ds.length ≠ 1 then none
  else some (bytesVal ds, s.dropWhile isDigitByte)

/-- An optional `(?:<lit>(<alphabet>{0,maxLen}))?` group: if the literal is
present it must be followed by an alphabet run of length at most `maxLen`
(possibly empty); if absent, nothing is consumed. -/
def parseOptGroup (lit : List Nat) (maxLen : Nat) (s : List Nat) :
    Option (List Nat × List Nat) :=
  match dropTok lit s with
  | none => some ([], s)
  | some s1 =>
    let v := s1.takeWhile (fun c => (alphabetIdx c).isSome)
    if v.length ≤ maxLen then some (v, s1.dropWhile (fun c => (alphabetIdx c).isSome))
    else none

/-- The `(?:\$(salt{11,64}))?(?:\$(hash{16,86}))?$` tail. -/
def parseSaltHash (s : List Nat) : Option (List Nat × List Nat) :=
  match s with
  | [] => some ([], [])
  | c :: s1 =>
    if c = 36 then
      let r := s1.takeWhile (fun ch => (alphabetIdx ch).isSome)
      let rest := s1.dropWhile (fun ch => (alphabetIdx ch).isSome)
      if 11 ≤ r.length ∧ r.length ≤ 64 then
        match rest with
        | [] => some (r, [])
        | c2 :: s2 =>
          if c2 = 36 then
            let r2 := s2.takeWhile (fun ch => (alphabetIdx ch).isSome)
            let rest2 := s2.dropWhile (fun ch => (alphabetIdx ch).isSome)
            if 16 ≤ r2.length ∧ r2.length ≤ 86 ∧ rest2 = [] then some (r, r2) else none
          else none
      else
        -- salt group cannot match: the hash group may still take this segment
        if 16 ≤ r.length ∧ r.length ≤ 86 ∧ rest = [] then some ([], r)
        else none
    else none

/-- The ordered variant alternation `(argon2id|argon2i|argon2d)`. -/
def parseVariant (s : List Nat) : Option (List Nat × List Nat) :=
  match dropTok argon2idB s with
  | some s1 => some (argon2idB, s1)
  | none =>
    match dropTok argon2iB s with
    | some s1 => some (argon2iB, s1)
    | none =>
      match dropTok argon2dB s with
      | some s1 => some (argon2dB, s1)
      | none => none

/-- `Argon2PHC` of the regex-based variant (salt and hash stay base64 text). -/
structure Argon2PHC where
  Variant : List Nat
  Memory : Nat
  Iterations : Nat
  Parallelism : Nat
  KeyId : List Nat
  Data : List Nat
  Salt : List Nat
  Hash : List Nat
deriving DecidableEq

/-- `DecodeArgon2PHC` (regex-based variant). -/
def DecodeArgon2PHC (input : List Nat) : Option Argon2PHC :=
  match input with
  | [] => none
  | c :: s0 =>
    if c = 36 then
      match parseVariant s0 with
      | none => none
      | some (variant, s1) =>
        match dropTok (mLitB) s1 with
        | none => none
        | some s2 =>
          match parsePHCNum 10 s2 with
          | none => none
          | some (memory, s3) =>
            match dropTok (tLitB) s3 with
            | none => none
            | some s4 =>
              match parsePHCNum 10 s4 with
              | none => none
              | some (iterations, s5) =>
                match dropTok (pLitB) s5 with
                | none => none
                | some s6 =>
                  match parsePHCNum 3 s6 with
                  | none => none
                  | some (parallelism, s7) =>
                    match parseOptGroup (keyidLitB) 11 s7 with
                    | none => none
                    | some (keyID, s8) =>
                      match parseOptGroup (dataLitB) 43 s8 with
                      | none => none
                      | some (dataV, s9) =>
                        match parseSaltHash s9 with
                        | none => none
                        | some (salt, hash) =>
                          some ⟨variant, memory, iterations, parallelism,
                            keyID, dataV, salt, hash⟩
    else none

/-- Decimal bytes of a natural number (the `%d` rendering of `fmt.Fprintf`). -/
def decBytes (n : Nat) : List Nat :=
  if n = 0 then [48] else ((Nat.digits 10 n).map (fun d => 48 + d)).reverse

/-- `Argon2PHC.EncodeString` (regex-based variant): `$<variant>$m=..,t=..,p=..`
followed by the optional `,keyid=`/`,data=` fields and `writeSaltAndHash`;
`none` models the error return (empty salt with non-empty hash). -/
def EncodeString (phc : Argon2PHC) : Option (List Nat) :=
  let head := 36 :: phc.Variant ++ mLitB ++ decBytes phc.Memory ++
    tLitB ++ decBytes phc.Iterations ++ pLitB ++ decBytes phc.Parallelism ++
    (if phc.KeyId ≠ [] then keyidLitB ++ phc.KeyId else []) ++
    (if phc.Data ≠ [] then dataLitB ++ phc.Data else [])
  let w := writeSaltAndHash phc.Salt phc.Hash
  if w.err then none else some (head ++ w.out)

/-- Field bounds under which an `Argon2PHC` value encodes to a string of the
canonical shape: numerals small enough for their groups, base64-alphabet
key-id/data/salt/hash within the length bounds of their groups. -/
def WF (phc : Argon2PHC) : Bool :=
  (isValidArgon2Variant phc.Variant) &&
  decide (phc.Memory < 10 ^ 10) && decide (phc.Iterations < 10 ^ 10) &&
  decide (phc.Parallelism < 10 ^ 3) &&
  validB64 phc.KeyId && decide (phc.KeyId.length ≤ 11) &&
  validB64 phc.Data && decide (phc.Data.length ≤ 43) &&
  (decide (phc.Salt = []) ||
    (validB64 phc.Salt && decide (11 ≤ phc.Salt.length ∧ phc.Salt.length ≤ 64))) &&
  (decide (phc.Hash = []) ||
    (validB64 phc.Hash && decide (16 ≤ phc.Hash.length ∧ phc.Hash.length ≤ 86)))

/-- A canonical encoding: a string produced by the encoder from a value within
the grammar's bounds (minimal numerals, no defaulted/empty optional fields,
fields in declared order — exactly what the encoder emits). -/
def Canonical (s : List Nat) : Prop := ∃ phc : Argon2PHC, WF phc ∧ EncodeString phc = some s

end ArgonRegex

/-- The decimal grammar as the claim states it: `0 | -[1-9][0-9]* | [1-9][0-9]*`. -/
def decimalGrammar (s : List Nat) : Prop :=
  s = [48] ∨
  (∃ c cs, s = 45 :: c :: cs ∧ 49 ≤ c ∧ c ≤ 57 ∧ ∀ d ∈ cs, 48 ≤ d ∧ d ≤ 57) ∨
  (∃ c cs, s = c :: cs ∧ 49 ≤ c ∧ c ≤ 57 ∧ ∀ d ∈ cs, 48 ≤ d ∧ d ≤ 57)

/-- The positive decimal grammar as the claim states it: `0 | [1-9][0-9]*`. -/
def positiveDecimalGrammar (s : List Nat) : Prop :=
  s = [48] ∨ (∃ c cs, s = c :: cs ∧ 49 ≤ c ∧ c ≤ 57 ∧ ∀ d ∈ cs, 48 ≤ d ∧ d ≤ 57)

/-- The numeric value the claim speaks of: decimal value with optional sign. -/
def decimalVal : List Nat → Int
  | [] => 0
  | c :: ds => if c = 45 then -(bytesVal ds : Int) else (bytesVal (c :: ds) : Int)

/-- A one-parameter demonstration schema: function name `f`, one required
parameter `x` with the default (nil) value validator, strict base64. -/
def demoSchema : PHCSchema :=
  { FunctionNames := [[102]]
    ParameterDescriptions := [⟨[120], [], false, none⟩]
    Decoder := fun src => Base64Decode src }

instance (α β : Type) [DecidableEq α] [DecidableEq β] : DecidableEq (Except α β) :=
  fun a b =>
    match a, b with
    | .ok x, .ok y => if h : x = y then isTrue (by rw [h]) else isFalse (by simp [h])
    | .error x, .error y => if h : x = y then isTrue (by rw [h]) else isFalse (by simp [h])
    | .ok _, .error _ => isFalse (by simp)
    | .error _, .ok _ => isFalse (by simp)

/-! ## Lemmas about the base64 codec -/

theorem alphabetIdx_lt {c i : Nat} (h : alphabetIdx c = some i) : i < 64 := by
  unfold alphabetIdx at h
  split_ifs at h <;> simp only [Option.some.injEq] at h <;> omega

theorem idxChar_alphabetIdx {c i : Nat} (h : alphabetIdx c = some i) : idxChar i = c := by
  unfold alphabetIdx at h
  unfold idxChar
  split_ifs at h <;> simp only [Option.some.injEq] at h <;> split_ifs <;> omega

/-- Any string of length 1 mod 4 is rejected by the decoder, strict or not. -/
theorem base64DecodeBytes_len_mod_four (strict : Bool) :
    ∀ s : List Nat, s.length % 4 = 1 → base64DecodeBytes strict s = none
  | [], h => by simp at h
  | [_], _ => rfl
  | [_, _], h => by simp at h
  | [_, _, _], h => by simp at h
  | c1 :: c2 :: c3 :: c4 :: rest, h => by
    have hr : rest.length % 4 = 1 := by
      have : (c1 :: c2 :: c3 :: c4 :: rest).length = rest.length + 4 := by
        simp [List.length_cons]
      omega
    have IH := base64DecodeBytes_len_mod_four strict rest hr
    simp only [base64DecodeBytes]
    cases alphabetIdx c1 <;> cases alphabetIdx c2 <;> cases alphabetIdx c3 <;>
      cases alphabetIdx c4 <;> simp [IH]

/-- Valid input with non-zero trailing padding bits: strict decoding fails,
non-strict decoding succeeds. -/
theorem base64DecodeBytes_dirty :
    ∀ s : List Nat, validB64 s = true → s.length % 4 = 2 ∨ s.length % 4 = 3 →
      finalTrailingBits s ≠ 0 →
      base64DecodeBytes true s = none ∧ ∃ bs, base64DecodeBytes false s = some bs
  | [], _, hl, _ => by simp at hl
  | [c1], _, hl, _ => by simp at hl
  | [c1, c2], hv, _, ht => by
    simp only [validB64, List.all_cons, List.all_nil, Bool.and_eq_true,
      Option.isSome_iff_exists] at hv
    obtain ⟨⟨i1, hi1⟩, ⟨i2, hi2⟩, -⟩ := hv
    have ht2 : i2 % 16 ≠ 0 := by
      simpa [finalTrailingBits, hi2] using ht
    refine ⟨?_, ⟨[i1 * 4 + i2 / 16], ?_⟩⟩
    · simp [base64DecodeBytes, hi1, hi2, ht2]
    · simp [base64DecodeBytes, hi1, hi2]
  | [c1, c2, c3], hv, _, ht => by
    simp only [validB64, List.all_cons, List.all_nil, Bool.and_eq_true,
      Option.isSome_iff_exists] at hv
    obtain ⟨⟨i1, hi1⟩, ⟨i2, hi2⟩, ⟨i3, hi3⟩, -⟩ := hv
    have ht3 : i3 % 4 ≠ 0 := by
      simpa [finalTrailingBits, hi3] using ht
    refine ⟨?_, ⟨[i1 * 4 + i2 / 16, i2 % 16 * 16 + i3 / 4], ?_⟩⟩
    · simp [base64DecodeBytes, hi1, hi2, hi3, ht3]
    · simp [base64DecodeBytes, hi1, hi2, hi3]
  | c1 :: c2 :: c3 :: c4 :: rest, hv, hl, ht => by
    simp only [validB64, List.all_cons, Bool.and_eq_true, Option.isSome_iff_exists] at hv
    obtain ⟨⟨i1, hi1⟩, ⟨i2, hi2⟩, ⟨i3, hi3⟩, ⟨i4, hi4⟩, hvrest⟩ := hv
    have hlen : (c1 :: c2 :: c3 :: c4 :: rest).length = rest.length + 4 := by
      simp [List.length_cons]
    have hlr : rest.length % 4 = 2 ∨ rest.length % 4 = 3 := by omega
    have hne : rest ≠ [] := by
      intro hemp; rw [hemp] at hlr; simp at hlr
    obtain ⟨r, rs, rfl⟩ := List.exists_cons_of_ne_nil hne
    have htr : finalTrailingBits (r :: rs) ≠ 0 := by
      have hsame : finalTrailingBits (c1 :: c2 :: c3 :: c4 :: r :: rs) =
          finalTrailingBits (r :: rs) := by
        simp only [finalTrailingBits, List.getLast?_cons_cons, List.length_cons]
        have : (rs.length + 1 + 1 + 1 + 1 + 1) % 4 = (rs.length + 1) % 4 := by omega
        rw [this]
      rwa [hsame] at ht
    obtain ⟨hstrict, bs, hns⟩ :=
      base64DecodeBytes_dirty (r :: rs) (by simpa [validB64] using hvrest) hlr htr
    refine ⟨?_, ⟨(i1 * 4 + i2 / 16) :: (i2 % 16 * 16 + i3 / 4) :: (i3 % 4 * 64 + i4) :: bs, ?_⟩⟩
    · simp [base64DecodeBytes, hi1, hi2, hi3, hi4, hstrict]
    · simp [base64DecodeBytes, hi1, hi2, hi3, hi4, hns]

/-- Valid input with zero trailing padding bits: both modes succeed with the
same bytes, and re-encoding those bytes restores the input. -/
theorem base64DecodeBytes_clean :
    ∀ s : List Nat, validB64 s = true → s.length % 4 ≠ 1 → finalTrailingBits s = 0 →
      ∃ bs, base64DecodeBytes true s = some bs ∧ base64DecodeBytes false s = some bs ∧
        base64EncodeBytes bs = s
  | [], _, _, _ => ⟨[], rfl, rfl, rfl⟩
  | [c1], _, hl, _ => by simp at hl
  | [c1, c2], hv, _, ht => by
    simp only [validB64, List.all_cons, List.all_nil, Bool.and_eq_true,
      Option.isSome_iff_exists] at hv
    obtain ⟨⟨i1, hi1⟩, ⟨i2, hi2⟩, -⟩ := hv
    have ht2 : i2 % 16 = 0 := by
      simpa [finalTrailingBits, hi2] using ht
    have b1 := alphabetIdx_lt hi1
    have b2 := alphabetIdx_lt hi2
    refine ⟨[i1 * 4 + i2 / 16], ?_, ?_, ?_⟩
    · simp [base64DecodeBytes, hi1, hi2, ht2]
    · simp [base64DecodeBytes, hi1, hi2]
    · have e1 : (i1 * 4 + i2 / 16) / 4 = i1 := by omega
      have e2 : (i1 * 4 + i2 / 16) % 4 * 16 = i2 := by omega
      simp [base64EncodeBytes, e1, e2, idxChar_alphabetIdx hi1, idxChar_alphabetIdx hi2]
  | [c1, c2, c3], hv, _, ht => by
    simp only [validB64, List.all_cons, List.all_nil, Bool.and_eq_true,
      Option.isSome_iff_exists] at hv
    obtain ⟨⟨i1, hi1⟩, ⟨i2, hi2⟩, ⟨i3, hi3⟩, -⟩ := hv
    have ht3 : i3 % 4 = 0 := by
      simpa [finalTrailingBits, hi3] using ht
    have b1 := alphabetIdx_lt hi1
    have b2 := alphabetIdx_lt hi2
    have b3 := alphabetIdx_lt hi3
    refine ⟨[i1 * 4 + i2 / 16, i2 % 16 * 16 + i3 / 4], ?_, ?_, ?_⟩
    · simp [base64DecodeBytes, hi1, hi2, hi3, ht3]
    · simp [base64DecodeBytes, hi1, hi2, hi3]
    · have e1 : (i1 * 4 + i2 / 16) / 4 = i1 := by omega
      have e2 : (i1 * 4 + i2 / 16) % 4 * 16 + (i2 % 16 * 16 + i3 / 4) / 16 = i2 := by omega
      have e3 : (i2 % 16 * 16 + i3 / 4) % 16 * 4 = i3 := by omega
      simp [base64EncodeBytes, e1, e2, e3, idxChar_alphabetIdx hi1,
        idxChar_alphabetIdx hi2, idxChar_alphabetIdx hi3]
  | c1 :: c2 :: c3 :: c4 :: rest, hv, hl, ht => by
    simp only [validB64, List.all_cons, Bool.and_eq_true, Option.isSome_iff_exists] at hv
    obtain ⟨⟨i1, hi1⟩, ⟨i2, hi2⟩, ⟨i3, hi3⟩, ⟨i4, hi4⟩, hvrest⟩ := hv
    have hlen : (c1 :: c2 :: c3 :: c4 :: rest).length = rest.length + 4 := by
      simp [List.length_cons]
    have hlr : rest.length % 4 ≠ 1 := by omega
    have htr : finalTrailingBits rest = 0 := by
      rcases rest with - | ⟨r, rs⟩
      · rfl
      · have hsame : finalTrailingBits (c1 :: c2 :: c3 :: c4 :: r :: rs) =
            finalTrailingBits (r :: rs) := by
          simp only [finalTrailingBits, List.getLast?_cons_cons, List.length_cons]
          have : (rs.length + 1 + 1 + 1 + 1 + 1) % 4 = (rs.length + 1) % 4 := by omega
          rw [this]
        rwa [hsame] at ht
    obtain ⟨bs, hstrict, hns, henc⟩ :=
      base64DecodeBytes_clean rest (by simpa [validB64] using hvrest) hlr htr
    have b1 := alphabetIdx_lt hi1
    have b2 := alphabetIdx_lt hi2
    have b3 := alphabetIdx_lt hi3
    have b4 := alphabetIdx_lt hi4
    refine ⟨(i1 * 4 + i2 / 16) :: (i2 % 16 * 16 + i3 / 4) :: (i3 % 4 * 64 + i4) :: bs,
      ?_, ?_, ?_⟩
    · simp [base64DecodeBytes, hi1, hi2, hi3, hi4, hstrict]
    · simp [base64DecodeBytes, hi1, hi2, hi3, hi4, hns]
    · have e1 : (i1 * 4 + i2 / 16) / 4 = i1 := by omega
      have e2 : (i1 * 4 + i2 / 16) % 4 * 16 + (i2 % 16 * 16 + i3 / 4) / 16 = i2 := by omega
      have e3 : (i2 % 16 * 16 + i3 / 4) % 16 * 4 + (i3 % 4 * 64 + i4) / 64 = i3 := by omega
      have e4 : (i3 % 4 * 64 + i4) % 64 = i4 := by omega
      simp [base64EncodeBytes, e1, e2, e3, e4, henc, idxChar_alphabetIdx hi1,
        idxChar_alphabetIdx hi2, idxChar_alphabetIdx hi3, idxChar_alphabetIdx hi4]

end Gophc

namespace Gophc

/-! ## Claims C4 and C5: strict vs non-strict base64 -/

/-- Removing newline bytes is the identity on strings that contain none. -/
theorem dropNewlineBytes_eq_self (s : List Nat) (h : ∀ c ∈ s, c ≠ 10 ∧ c ≠ 13) :
    dropNewlineBytes s = s := by
  apply List.filter_eq_self.mpr
  intro c hc
  rcases h c hc with ⟨h1, h2⟩
  simp [h1, h2]

/-- Alphabet-only strings contain no newline bytes, so removing them is the
identity there. -/
theorem validB64_dropNewlineBytes (s : List Nat) (hv : validB64 s = true) :
    dropNewlineBytes s = s := by
  apply dropNewlineBytes_eq_self
  intro c hc
  have hs := List.all_eq_true.mp hv c hc
  constructor <;> rintro rfl <;> exact absurd hs (by decide)

/-- C4: on alphabet-only input of length 2 or 3 mod 4 whose final symbol has
non-zero bits beyond the encoded byte boundary, strict `Base64Decode` errors
while `Base64DecodeNotStrict` succeeds (concretely on `"Hj5+dsK0ZR"`); when
the trailing bits are all zero, both modes succeed with the same bytes and
`Base64Encode` maps those bytes back to the input (concretely on
`"Hj5+dsK0ZQA"`). -/
theorem claim_C4 :
    (∀ s : List Nat, validB64 s = true → (s.length % 4 = 2 ∨ s.length % 4 = 3) →
      finalTrailingBits s ≠ 0 →
      Base64Decode s = none ∧ ∃ bs, Base64DecodeNotStrict s = some bs) ∧
    (∀ s : List Nat, validB64 s = true → s.length % 4 ≠ 1 → finalTrailingBits s = 0 →
      ∃ bs, Base64Decode s = some bs ∧ Base64DecodeNotStrict s = some bs ∧
        base64EncodeBytes bs = s) ∧
    (Base64Decode (asB "Hj5+dsK0ZR") = none ∧
      Base64DecodeNotStrict (asB "Hj5+dsK0ZR") = some [30, 62, 126, 118, 194, 180, 101]) ∧
    (Base64Decode (asB "Hj5+dsK0ZQA") = some [30, 62, 126, 118, 194, 180, 101, 0] ∧
      Base64DecodeNotStrict (asB "Hj5+dsK0ZQA") = some [30, 62, 126, 118, 194, 180, 101, 0] ∧
      base64EncodeBytes [30, 62, 126, 118, 194, 180, 101, 0] = asB "Hj5+dsK0ZQA") := by
  refine ⟨fun s hv hl ht => ?_, fun s hv hl ht => ?_, ⟨?_, ?_⟩, ⟨?_, ?_, ?_⟩⟩
  · simp only [Base64Decode, Base64DecodeNotStrict, validB64_dropNewlineBytes s hv]
    exact base64DecodeBytes_dirty s hv hl ht
  · simp only [Base64Decode, Base64DecodeNotStrict, validB64_dropNewlineBytes s hv]
    exact base64DecodeBytes_clean s hv hl ht
  all_goals decide

/-- Witness for C4: both universally quantified parts applied at the two
concrete strings of the claim. -/
theorem claim_C4_witness :
    (Base64Decode (asB "Hj5+dsK0ZR") = none ∧
      ∃ bs, Base64DecodeNotStrict (asB "Hj5+dsK0ZR") = some bs) ∧
    (∃ bs, Base64Decode (asB "Hj5+dsK0ZQA") = some bs ∧
      Base64DecodeNotStrict (asB "Hj5+dsK0ZQA") = some bs ∧
      base64EncodeBytes bs = asB "Hj5+dsK0ZQA") :=
  ⟨claim_C4.1 (asB "Hj5+dsK0ZR") (by decide) (by decide) (by decide),
   claim_C4.2.1 (asB "Hj5+dsK0ZQA") (by decide) (by decide) (by decide)⟩

/-- C5 counterexample to the original claim: the string of four A symbols
followed by a line feed has length 5 (1 mod 4), yet both decode modes accept
it and return three zero bytes, because the decoder skips the line-feed
byte before forming quantum groups. -/
theorem claim_C5_counterexample :
    (asB "AAAA\n").length % 4 = 1 ∧
    Base64Decode (asB "AAAA\n") = some [0, 0, 0] ∧
    Base64DecodeNotStrict (asB "AAAA\n") = some [0, 0, 0] := by
  decide

/-- C5 (amended): for every string which, after removing the carriage-return
and line-feed bytes that the decoder skips, has length 1 mod 4 — in
particular every CR/LF-free string of length 1 mod 4 — both `Base64Decode`
and `Base64DecodeNotStrict` return an error; the empty string decodes
successfully to the empty byte sequence in both modes. -/
theorem claim_C5 :
    (∀ s : List Nat, (dropNewlineBytes s).length % 4 = 1 →
      Base64Decode s = none ∧ Base64DecodeNotStrict s = none) ∧
    (∀ s : List Nat, (∀ c ∈ s, c ≠ 10 ∧ c ≠ 13) → s.length % 4 = 1 →
      Base64Decode s = none ∧ Base64DecodeNotStrict s = none) ∧
    Base64Decode [] = some [] ∧ Base64DecodeNotStrict [] = some [] := by
  have key : ∀ s : List Nat, (dropNewlineBytes s).length % 4 = 1 →
      Base64Decode s = none ∧ Base64DecodeNotStrict s = none := fun s h =>
    ⟨base64DecodeBytes_len_mod_four true _ h, base64DecodeBytes_len_mod_four false _ h⟩
  refine ⟨key, fun s hnl hlen => key s ?_, rfl, rfl⟩
  rw [dropNewlineBytes_eq_self s hnl]
  exact hlen

/-- Witness for C5: the CR/LF-free length-1 string `"a"` is rejected by both
modes. -/
theorem claim_C5_witness :
    Base64Decode (asB "a") = none ∧ Base64DecodeNotStrict (asB "a") = none :=
  claim_C5.2.1 (asB "a") (by decide) (by decide)

end Gophc

namespace Gophc

/-! ## Claims C9 and C6: utils.go -/

/-- C9: `writeSaltAndHash` errors (writing nothing) exactly when the salt is
empty and the hash is not; writes nothing on two empty inputs; otherwise
writes `$<salt>` and, only for a non-empty hash, `$<hash>`. -/
theorem claim_C9 : ∀ salt hash : List Nat,
    ((writeSaltAndHash salt hash).err = true ↔ salt = [] ∧ hash ≠ []) ∧
    ((writeSaltAndHash salt hash).err = true →
      (writeSaltAndHash salt hash).out = [] ∧ (writeSaltAndHash salt hash).n = 0) ∧
    (salt = [] → hash = [] → writeSaltAndHash salt hash = ⟨[], 0, false⟩) ∧
    (salt ≠ [] →
      (writeSaltAndHash salt hash).err = false ∧
      (writeSaltAndHash salt hash).out =
        36 :: salt ++ (if hash = [] then [] else 36 :: hash) ∧
      (writeSaltAndHash salt hash).n = (writeSaltAndHash salt hash).out.length) := by
  intro salt hash
  by_cases hs : salt = [] <;> by_cases hh : hash = [] <;>
    simp [writeSaltAndHash, hs, hh]

/-- Witness for C9: the four concrete salt/hash shapes. -/
theorem claim_C9_witness :
    ((writeSaltAndHash [] [97]).err = true ↔ ([] : List Nat) = [] ∧ [97] ≠ ([] : List Nat)) ∧
    ((writeSaltAndHash [] []) = ⟨[], 0, false⟩) ∧
    ((writeSaltAndHash [97] [98]).out = 36 :: [97] ++ (if [98] = ([] : List Nat) then [] else 36 :: [98])) :=
  ⟨(claim_C9 [] [97]).1,
   (claim_C9 [] []).2.2.1 rfl rfl,
   ((claim_C9 [97] [98]).2.2.2 (by decide)).2.1⟩

theorem matchesNegNum_iff (s : List Nat) :
    matchesNegNum s = true ↔
      ∃ c cs, s = 45 :: c :: cs ∧ 49 ≤ c ∧ c ≤ 57 ∧ ∀ d ∈ cs, 48 ≤ d ∧ d ≤ 57 := by
  rcases s with - | ⟨c, - | ⟨c2, cs2⟩⟩
  · simp [matchesNegNum]
  · simp [matchesNegNum]
  · simp only [matchesNegNum, Bool.and_eq_true, beq_iff_eq, isNonzeroDigitByte,
      decide_eq_true_eq, List.all_eq_true, isDigitByte]
    constructor
    · rintro ⟨⟨rfl, h2⟩, hall⟩
      exact ⟨c2, cs2, rfl, h2.1, h2.2, fun d hd => by simpa using hall d hd⟩
    · rintro ⟨c', cs', heq, h1, h2, hall⟩
      injection heq with e1 e2
      injection e2 with e2 e3
      subst e1; subst e2; subst e3
      exact ⟨⟨rfl, h1, h2⟩, fun d hd => by simpa using hall d hd⟩

theorem matchesPosNum_iff (s : List Nat) :
    matchesPosNum s = true ↔
      ∃ c cs, s = c :: cs ∧ 49 ≤ c ∧ c ≤ 57 ∧ ∀ d ∈ cs, 48 ≤ d ∧ d ≤ 57 := by
  rcases s with - | ⟨c, cs⟩
  · simp [matchesPosNum]
  · simp only [matchesPosNum, Bool.and_eq_true, isNonzeroDigitByte,
      decide_eq_true_eq, List.all_eq_true, isDigitByte]
    constructor
    · rintro ⟨h1, hall⟩
      exact ⟨c, cs, rfl, h1.1, h1.2, fun d hd => by simpa using hall d hd⟩
    · rintro ⟨c', cs', heq, h1, h2, hall⟩
      injection heq with e1 e2
      subst e1; subst e2
      exact ⟨⟨h1, h2⟩, fun d hd => by simpa using hall d hd⟩

theorem phcDecimalMatches_iff (s : List Nat) :
    phcDecimalMatches s = true ↔ decimalGrammar s := by
  simp only [phcDecimalMatches, Bool.or_eq_true, decimalGrammar, matchesZero,
    beq_iff_eq, matchesNegNum_iff, matchesPosNum_iff, or_assoc]

theorem phcPositiveDecimalMatches_iff (s : List Nat) :
    phcPositiveDecimalMatches s = true ↔ positiveDecimalGrammar s := by
  simp only [phcPositiveDecimalMatches, Bool.or_eq_true, positiveDecimalGrammar,
    matchesZero, beq_iff_eq, matchesPosNum_iff]

end Gophc

namespace Gophc

theorem atoiInt_nonneg_shape (c : Nat) (cs : List Nat) (hc : c ≠ 45) (k : Int) :
    atoiInt (c :: cs) = some k ↔
      k = decimalVal (c :: cs) ∧ -(2 ^ 63) ≤ k ∧ k ≤ 2 ^ 63 - 1 := by
  have hV : (0 : Int) ≤ (bytesVal (c :: cs) : Int) := Int.natCast_nonneg _
  simp only [atoiInt, if_neg hc, decimalVal]
  split_ifs with h
  · simp only [reduceCtorEq, false_iff, not_and]
    intro hk
    omega
  · simp only [Option.some.injEq]
    constructor
    · rintro rfl
      refine ⟨rfl, by omega, by omega⟩
    · rintro ⟨rfl, -, -⟩
      rfl

theorem atoiInt_neg_shape (ds : List Nat) (k : Int) :
    atoiInt (45 :: ds) = some k ↔
      k = decimalVal (45 :: ds) ∧ -(2 ^ 63) ≤ k ∧ k ≤ 2 ^ 63 - 1 := by
  have hV : (0 : Int) ≤ (bytesVal ds : Int) := Int.natCast_nonneg _
  have e : atoiInt (45 :: ds) =
      if (bytesVal ds : Int) > 2 ^ 63 then none else some (-(bytesVal ds : Int)) := by
    simp [atoiInt]
  have ed : decimalVal (45 :: ds) = -(bytesVal ds : Int) := by
    simp [decimalVal]
  rw [e, ed]
  split_ifs with h
  · simp only [reduceCtorEq, false_iff, not_and]
    intro hk
    omega
  · simp only [Option.some.injEq]
    constructor
    · rintro rfl
      refine ⟨rfl, by omega, by omega⟩
    · rintro ⟨rfl, -, -⟩
      rfl

/-- C6 (amended): the decimal parsers return the numeric value for exactly the
grammar-matching inputs whose value fits the 64-bit `int` range, and reject
everything else — including the listed non-minimal forms. -/
theorem claim_C6 :
    (∀ (s : List Nat) (k : Int), ParsePHCDecimal s = some k ↔
      decimalGrammar s ∧ k = decimalVal s ∧ -(2 ^ 63) ≤ k ∧ k ≤ 2 ^ 63 - 1) ∧
    (∀ (s : List Nat) (k : Int), ParsePHCPositiveDecimal s = some k ↔
      positiveDecimalGrammar s ∧ k = decimalVal s ∧ k ≤ 2 ^ 63 - 1) ∧
    (ParsePHCDecimal (asB "0") = some 0 ∧ ParsePHCDecimal (asB "-1") = some (-1) ∧
      ParsePHCDecimal (asB "4242") = some 4242 ∧
      ParsePHCDecimal (asB "01") = none ∧ ParsePHCDecimal (asB "-0") = none ∧
      ParsePHCDecimal (asB "--42") = none ∧ ParsePHCDecimal (asB "-") = none ∧
      ParsePHCDecimal (asB "123bar") = none) ∧
    (ParsePHCPositiveDecimal (asB "4242") = some 4242 ∧
      ParsePHCPositiveDecimal (asB "-1") = none ∧
      ParsePHCPositiveDecimal (asB "-2121") = none ∧
      ParsePHCPositiveDecimal (asB "01") = none) := by
  refine ⟨?_, ?_, by decide, by decide⟩
  · intro s k
    by_cases hm : phcDecimalMatches s = true
    · rw [ParsePHCDecimal, if_pos hm]
      have hg := (phcDecimalMatches_iff s).mp hm
      have hiff : atoiInt s = some k ↔
          k = decimalVal s ∧ -(2 ^ 63) ≤ k ∧ k ≤ 2 ^ 63 - 1 := by
        rcases hg with h | ⟨c, cs, h, -, -, -⟩ | ⟨c, cs, h, h1, -, -⟩
        · subst h
          exact atoiInt_nonneg_shape 48 [] (by omega) k
        · subst h
          exact atoiInt_neg_shape (c :: cs) k
        · subst h
          exact atoiInt_nonneg_shape c cs (by omega) k
      constructor
      · intro h
        exact ⟨hg, (hiff.mp h)⟩
      · rintro ⟨-, hv⟩
        exact hiff.mpr hv
    · rw [ParsePHCDecimal, if_neg hm]
      constructor
      · intro h
        exact absurd h (by simp)
      · rintro ⟨hg, -⟩
        exact absurd ((phcDecimalMatches_iff s).mpr hg) hm
  · intro s k
    by_cases hm : phcPositiveDecimalMatches s = true
    · rw [ParsePHCPositiveDecimal, if_pos hm]
      have hg := (phcPositiveDecimalMatches_iff s).mp hm
      have hiff : atoiInt s = some k ↔
          k = decimalVal s ∧ -(2 ^ 63) ≤ k ∧ k ≤ 2 ^ 63 - 1 := by
        rcases hg with h | ⟨c, cs, h, h1, -, -⟩
        · subst h
          exact atoiInt_nonneg_shape 48 [] (by omega) k
        · subst h
          exact atoiInt_nonneg_shape c cs (by omega) k
      have hnn : 0 ≤ decimalVal s := by
        rcases hg with h | ⟨c, cs, h, h1, -, -⟩ <;> subst h
        · rw [decimalVal, if_neg (by omega)]
          exact Int.natCast_nonneg _
        · rw [decimalVal, if_neg (by omega)]
          exact Int.natCast_nonneg _
      constructor
      · intro h
        obtain ⟨hk, -, h2⟩ := hiff.mp h
        exact ⟨hg, hk, h2⟩
      · rintro ⟨-, hk, h2⟩
        refine hiff.mpr ⟨hk, by omega, h2⟩
    · rw [ParsePHCPositiveDecimal, if_neg hm]
      constructor
      · intro h
        exact absurd h (by simp)
      · rintro ⟨hg, -⟩
        exact absurd ((phcPositiveDecimalMatches_iff s).mpr hg) hm

/-- Counterexample to C6 as stated: `"9223372036854775808"` (2^63) matches the
signed decimal grammar but `ParsePHCDecimal` returns an error, because
`strconv.Atoi` overflows the 64-bit `int` range. -/
theorem claim_C6_counterexample :
    decimalGrammar (asB "9223372036854775808") ∧
    ParsePHCDecimal (asB "9223372036854775808") = none :=
  ⟨(phcDecimalMatches_iff _).mp (by decide), by decide⟩

/-- Witness for C6: the characterization applied at the concrete input `"4242"`. -/
theorem claim_C6_witness : ParsePHCDecimal (asB "4242") = some 4242 :=
  (claim_C6.1 (asB "4242") 4242).mpr
    ⟨(phcDecimalMatches_iff _).mp (by decide), by decide, by decide, by decide⟩

end Gophc

namespace Gophc

/-! ## Lemmas about the schema engine and claim C1 -/

theorem parseParameter_isSet (s : List Nat) (p : ParameterValuePair)
    (h : parseParameter s = .ok p) : p.IsSet = true := by
  simp only [parseParameter] at h
  split_ifs at h
  simp only [Except.ok.injEq] at h
  rw [← h]

theorem parseParameterList_isSet :
    ∀ (subs : List (List Nat)) (ps : List ParameterValuePair),
      parseParameterList subs = .ok ps → ∀ p ∈ ps, p.IsSet = true
  | [], ps, h => by
    simp only [parseParameterList, Except.ok.injEq] at h
    subst h
    simp
  | sub :: rest, ps, h => by
    simp only [parseParameterList] at h
    rcases h1 : parseParameter sub with e | p0
    · rw [h1] at h
      simp at h
    · rw [h1] at h
      rcases h2 : parseParameterList rest with e | ps0
      · rw [h2] at h
        simp at h
      · rw [h2] at h
        simp only [Except.ok.injEq] at h
        subst h
        intro p hp
        rcases List.mem_cons.mp hp with rfl | hp
        · exact parseParameter_isSet sub p h1
        · exact parseParameterList_isSet rest ps0 h2 p hp

theorem matchParameters_ok_shape (schema : PHCSchema) :
    ∀ (ds : List PHCParameterDescription) (ps res : List ParameterValuePair),
      (∀ p ∈ ps, p.IsSet = true) →
      schema.matchParameters ds ps = .ok res →
      res.length = ds.length ∧
      ∀ i d r, ds.get? i = some d → res.get? i = some r →
        r.Name = d.Name ∧
        (r.IsSet = false → r = ⟨d.Name, d.Default, false⟩ ∧ d.Optional = true) ∧
        (r.IsSet = true → r ∈ ps ∧ d.GetValueValidatorFunc r.Value = true)
  | [], [], res, _, h => by
    simp only [PHCSchema.matchParameters, Except.ok.injEq] at h
    subst h
    exact ⟨rfl, fun i d r hd => by simp at hd⟩
  | [], p :: ps, res, _, h => by
    simp [PHCSchema.matchParameters] at h
  | d :: ds, [], res, hset, h => by
    simp only [PHCSchema.matchParameters] at h
    split_ifs at h with hopt
    rcases h2 : schema.matchParameters ds [] with e | res0
    · rw [h2] at h; simp at h
    · rw [h2] at h
      simp only [Except.ok.injEq] at h
      subst h
      obtain ⟨hlen, hidx⟩ := matchParameters_ok_shape schema ds [] res0 (by simp) h2
      refine ⟨by simp [hlen], fun i dd rr hd hr => ?_⟩
      cases i with
      | zero =>
        simp only [List.get?] at hd hr
        injection hd with hd
        injection hr with hr
        subst hd; subst hr
        refine ⟨rfl, fun _ => ⟨rfl, hopt⟩, fun hfalse => by simp at hfalse⟩
      | succ n =>
        simp only [List.get?] at hd hr
        exact hidx n dd rr hd hr
  | d :: ds, p :: ps, res, hset, h => by
    simp only [PHCSchema.matchParameters] at h
    split_ifs at h with hname hval hopt
    · -- match: validate ok, keep parsed, advance both
      rcases h2 : schema.matchParameters ds ps with e | res0
      · rw [h2] at h; simp at h
      · rw [h2] at h
        simp only [Except.ok.injEq] at h
        subst h
        have hset' : ∀ q ∈ ps, q.IsSet = true := fun q hq => hset q (List.mem_cons_of_mem _ hq)
        obtain ⟨hlen, hidx⟩ := matchParameters_ok_shape schema ds ps res0 hset' h2
        refine ⟨by simp [hlen], fun i dd rr hd hr => ?_⟩
        cases i with
        | zero =>
          simp only [List.get?] at hd hr
          injection hd with hd
          injection hr with hr
          subst hd; subst hr
          have hpset := hset p (List.mem_cons_self p ps)
          exact ⟨hname.symm, fun hf => by rw [hpset] at hf; simp at hf,
            fun _ => ⟨List.mem_cons_self p ps, hval⟩⟩
        | succ n =>
          simp only [List.get?] at hd hr
          obtain ⟨ha, hb, hc⟩ := hidx n dd rr hd hr
          exact ⟨ha, hb, fun ht => ⟨List.mem_cons_of_mem _ (hc ht).1, (hc ht).2⟩⟩
    · -- no match: current descriptor optional, advance only descriptors
      rcases h2 : schema.matchParameters ds (p :: ps) with e | res0
      · rw [h2] at h; simp at h
      · rw [h2] at h
        simp only [Except.ok.injEq] at h
        subst h
        obtain ⟨hlen, hidx⟩ := matchParameters_ok_shape schema ds (p :: ps) res0 hset h2
        refine ⟨by simp [hlen], fun i dd rr hd hr => ?_⟩
        cases i with
        | zero =>
          simp only [List.get?] at hd hr
          injection hd with hd
          injection hr with hr
          subst hd; subst hr
          refine ⟨rfl, fun _ => ⟨rfl, hopt⟩, fun hfalse => by simp at hfalse⟩
        | succ n =>
          simp only [List.get?] at hd hr
          exact hidx n dd rr hd hr

end Gophc

namespace Gophc

/-- C1: the positional lock-step matching of `matchParameters`. A name match
validates the value and keeps the parsed pair (which carries `IsSet = true`
for every list produced by `parseParameters`), advancing both cursors; a
mismatch requires the current descriptor to be optional and synthesizes its
default with `IsSet = false`, advancing only the descriptor cursor; leftover
parsed entries give the unmatched-parameter-name error; leftover descriptors
must be optional or give the non-optional-parameter-missing error. A
successful match has exactly one pair per descriptor, in descriptor order. -/
theorem claim_C1 (schema : PHCSchema) :
    (∀ (d : PHCParameterDescription) ds (p : ParameterValuePair) ps,
      d.Name = p.Name → d.GetValueValidatorFunc p.Value = true →
      schema.matchParameters (d :: ds) (p :: ps) =
        (schema.matchParameters ds ps).map (fun r => p :: r)) ∧
    (∀ (d : PHCParameterDescription) ds (p : ParameterValuePair) ps,
      d.Name = p.Name → d.GetValueValidatorFunc p.Value = false →
      schema.matchParameters (d :: ds) (p :: ps) =
        .error (.parameterValueValidation d.Name)) ∧
    (∀ (d : PHCParameterDescription) ds (p : ParameterValuePair) ps,
      d.Name ≠ p.Name → d.Optional = true →
      schema.matchParameters (d :: ds) (p :: ps) =
        (schema.matchParameters ds (p :: ps)).map
          (fun r => (⟨d.Name, d.Default, false⟩ : ParameterValuePair) :: r)) ∧
    (∀ (d : PHCParameterDescription) ds (p : ParameterValuePair) ps,
      d.Name ≠ p.Name → d.Optional = false →
      schema.matchParameters (d :: ds) (p :: ps) =
        .error (.nonOptionalParameterMissing d.Name)) ∧
    (∀ (p : ParameterValuePair) ps,
      schema.matchParameters [] (p :: ps) = .error (.unmatchedParameterName p.Name)) ∧
    (∀ (d : PHCParameterDescription) ds, d.Optional = true →
      schema.matchParameters (d :: ds) [] =
        (schema.matchParameters ds []).map
          (fun r => (⟨d.Name, d.Default, false⟩ : ParameterValuePair) :: r)) ∧
    (∀ (d : PHCParameterDescription) ds, d.Optional = false →
      schema.matchParameters (d :: ds) [] =
        .error (.nonOptionalParameterMissing d.Name)) ∧
    (∀ s ps, parseParameters s = .ok ps → ∀ p ∈ ps, p.IsSet = true) ∧
    (∀ ds ps res, (∀ p ∈ ps, p.IsSet = true) →
      schema.matchParameters ds ps = .ok res →
      res.length = ds.length ∧
      ∀ i d r, ds.get? i = some d → res.get? i = some r →
        r.Name = d.Name ∧
        (r.IsSet = false → r = ⟨d.Name, d.Default, false⟩ ∧ d.Optional = true) ∧
        (r.IsSet = true → r ∈ ps ∧ d.GetValueValidatorFunc r.Value = true)) := by
  refine ⟨?_, ?_, ?_, ?_, ?_, ?_, ?_,
    fun s ps h => parseParameterList_isSet (s.splitOn 44) ps h,
    fun ds ps res hset h => matchParameters_ok_shape schema ds ps res hset h⟩
  · intro d ds p ps hname hval
    rcases h2 : schema.matchParameters ds ps with e | res0 <;>
      simp [PHCSchema.matchParameters, hname, hval, h2, Except.map]
  · intro d ds p ps hname hval
    simp [PHCSchema.matchParameters, hname, hval]
  · intro d ds p ps hname hopt
    rcases h2 : schema.matchParameters ds (p :: ps) with e | res0 <;>
      simp [PHCSchema.matchParameters, hname, hopt, h2, Except.map]
  · intro d ds p ps hname hopt
    simp [PHCSchema.matchParameters, hname, hopt]
  · intro p ps
    simp [PHCSchema.matchParameters]
  · intro d ds hopt
    rcases h2 : schema.matchParameters ds [] with e | res0 <;>
      simp [PHCSchema.matchParameters, hopt, h2, Except.map]
  · intro d ds hopt
    simp [PHCSchema.matchParameters, hopt]

/-- Witness for C1: the lock-step equations applied at the Argon2 schema's
descriptors and concrete parsed pairs. -/
theorem claim_C1_witness :
    (Argon2Schema.matchParameters
        ([⟨mNameB, [], false, some NoValueValidator⟩]) [⟨mNameB, [56], true⟩] =
      (Argon2Schema.matchParameters [] []).map (fun r => (⟨mNameB, [56], true⟩ : ParameterValuePair) :: r)) ∧
    (Argon2Schema.matchParameters
        ([⟨mNameB, [], false, some NoValueValidator⟩]) [⟨tNameB, [49], true⟩] =
      .error (.nonOptionalParameterMissing mNameB)) ∧
    (Argon2Schema.matchParameters [] [⟨tNameB, [49], true⟩] =
      .error (.unmatchedParameterName tNameB)) :=
  ⟨(claim_C1 Argon2Schema).1 ⟨mNameB, [], false, some NoValueValidator⟩ []
      ⟨mNameB, [56], true⟩ [] (by decide) (by decide),
   (claim_C1 Argon2Schema).2.2.2.1 ⟨mNameB, [], false, some NoValueValidator⟩ []
      ⟨tNameB, [49], true⟩ [] (by decide) (by decide),
   (claim_C1 Argon2Schema).2.2.2.2.1 ⟨tNameB, [49], true⟩ []⟩

end Gophc

namespace Gophc

/-! ## Claims C3 and C10 -/

/-- Counterexample to C3 as stated: decoding `"$argon2i"` with the Argon2
schema fails (missing required `m`), yet the returned instance is not the
zero value — its function name field was already populated. -/
theorem claim_C3_counterexample :
    (Argon2Schema.Decode (asB "$argon2i")).2 ≠ none ∧
    (Argon2Schema.Decode (asB "$argon2i")).1 ≠ emptyInstance := by
  decide

/-- C3 (amended): when `Schema.Decode` returns a non-nil error it returns it
alongside a `PHCInstance` that may carry the fields populated before the
failure was detected: for `"$argon2i"` the function name is already set, and
for a salt whose base64 decoding fails the function name, matched parameters
and salt text are all set. -/
theorem claim_C3 :
    Argon2Schema.Decode (asB "$argon2i") =
      ({ emptyInstance with Function := argon2iB },
        some (.nonOptionalParameterMissing mNameB)) ∧
    Argon2Schema.Decode (asB "$argon2i$v=16,m=1,t=1,p=1$a") =
      ({ emptyInstance with
          Function := argon2iB
          SaltString := [97]
          Parameters := [⟨vNameB, [49, 54], true⟩, ⟨mNameB, [49], true⟩,
            ⟨tNameB, [49], true⟩, ⟨pNameB, [49], true⟩] },
        some (.base64DecodeError true)) := by
  decide

theorem takeWhile_dropWhile_append (p : Nat → Bool) :
    ∀ (a b : List Nat), (∀ x ∈ a, p x = true) → (∀ c, b.head? = some c → p c = false) →
      (a ++ b).takeWhile p = a ∧ (a ++ b).dropWhile p = b
  | [], b, _, hb => by
    rcases b with - | ⟨c, bs⟩
    · exact ⟨rfl, rfl⟩
    · have := hb c rfl
      simp [List.takeWhile, List.dropWhile, this]
  | x :: a, b, ha, hb => by
    have hx : p x = true := ha x (List.mem_cons_self x a)
    obtain ⟨h1, h2⟩ := takeWhile_dropWhile_append p a b
      (fun y hy => ha y (List.mem_cons_of_mem _ hy)) hb
    simp [List.takeWhile, List.dropWhile, hx, h1, h2]

/-- C10: a `name=` token with empty value parses successfully with
`Value = ""` and `IsSet = true`; the default value validator accepts the empty
value; consequently a schema decode with default validation accepts a present
parameter with an empty value. -/
theorem claim_C10 :
    (∀ name : List Nat, 61 ∉ name → parseParameter (name ++ [61]) = .ok ⟨name, [], true⟩) ∧
    ValueCharacterValidator [] = true ∧
    demoSchema.Decode (asB "$f$x=") =
      ({ emptyInstance with Function := [102], Parameters := [⟨[120], [], true⟩] },
        none) := by
  refine ⟨?_, rfl, by decide⟩
  intro name hname
  obtain ⟨h1, h2⟩ := takeWhile_dropWhile_append (fun c => ¬(c = 61)) name [61]
    (fun x hx => by
      simp only [decide_eq_true_eq]
      intro hx61
      exact hname (hx61 ▸ hx))
    (fun c hc => by
      injection hc with hc
      subst hc
      simp)
  simp only [parseParameter, h1]
  have hlen : name.length ≠ (name ++ [61]).length := by
    simp
  rw [if_neg hlen]
  have hdrop : (name ++ [61]).drop (name.length + 1) = [] := by
    apply List.drop_eq_nil_of_le
    simp
  rw [hdrop]

/-- Witness for C10: the token `"x="` parses to an empty set value. -/
theorem claim_C10_witness : parseParameter ([120] ++ [61]) = .ok ⟨[120], [], true⟩ :=
  claim_C10.1 [120] (by decide)

end Gophc

namespace Gophc

/-! ## Claim C7: structural errors of `PHCSchema.Decode` -/

theorem decodeSaltHash_none_len (schema : PHCSchema) (inst0 inst : PHCInstance) :
    ∀ tail, schema.decodeSaltHash inst0 tail = (inst, none) → tail.length ≤ 2 := by
  intro tail h
  rcases tail with - | ⟨salt, - | ⟨hash, rest2⟩⟩
  · simp
  · simp
  · simp only [PHCSchema.decodeSaltHash] at h
    rcases h1 : schema.Decoder salt with - | sb
    · rw [h1] at h
      dsimp only at h
      simp at h
    · rw [h1] at h
      dsimp only at h
      rcases h2 : schema.Decoder hash with - | hb
      · rw [h2] at h
        dsimp only at h
        simp at h
      · rw [h2] at h
        dsimp only at h
        by_cases h3 : rest2 = []
        · subst h3
          simp
        · rw [if_neg h3] at h
          simp at h

theorem decodeParamsAndTail_none_len (schema : PHCSchema) (res1 inst : PHCInstance) :
    ∀ rest, schema.decodeParamsAndTail res1 rest = (inst, none) →
      rest.length ≤ 3 ∧
      (rest.length = 3 → ∃ seg rs, rest = seg :: rs ∧ seg.any (fun c => c = 61) = true) := by
  intro rest h
  rcases rest with - | ⟨seg, rs⟩
  · simp
  · simp only [PHCSchema.decodeParamsAndTail] at h
    by_cases hany : seg.any (fun c => c = 61) = true
    · rw [if_pos hany] at h
      rcases h1 : parseParameters seg with e | parsed
      · rw [h1] at h
        dsimp only at h
        simp at h
      · rw [h1] at h
        dsimp only at h
        rcases h2 : schema.matchParameters schema.ParameterDescriptions parsed with e | fin
        · rw [h2] at h
          dsimp only at h
          simp at h
        · rw [h2] at h
          dsimp only at h
          have hlen := decodeSaltHash_none_len schema _ inst rs h
          constructor
          · simp only [List.length_cons]
            omega
          · exact fun _ => ⟨seg, rs, rfl, hany⟩
    · rw [if_neg hany] at h
      rcases h2 : schema.matchParameters schema.ParameterDescriptions [] with e | fin
      · rw [h2] at h
        dsimp only at h
        simp at h
      · rw [h2] at h
        dsimp only at h
        have hlen := decodeSaltHash_none_len schema _ inst (seg :: rs) h
        simp only [List.length_cons] at hlen ⊢
        exact ⟨by omega, fun h3 => by omega⟩

/-- C7: decode rejects inputs not starting with `$` and inputs with empty
`$`-segments with invalid-structure errors; an input that decodes without
error has at most function name, parameter segment, salt and hash segments
(so leftover segments never produce an instance); a concrete input with a
segment after the hash yields the too-many-`$` invalid-structure error. -/
theorem claim_C7 :
    (∀ (schema : PHCSchema) (s : List Nat), s.head? ≠ some 36 →
      schema.Decode s = (emptyInstance, some (.invalidStructure .mustBegin))) ∧
    (∀ (schema : PHCSchema) (s1 : List Nat),
      (s1.splitOn 36).any (fun sub => sub = []) = true →
      schema.Decode (36 :: s1) = (emptyInstance, some (.invalidStructure .consecutiveDollar))) ∧
    (∀ (schema : PHCSchema) (s : List Nat) (inst : PHCInstance),
      schema.Decode s = (inst, none) →
      ∃ s1 fn rest, s = 36 :: s1 ∧ s1.splitOn 36 = fn :: rest ∧ rest.length ≤ 3 ∧
        (rest.length = 3 → ∃ seg rs, rest = seg :: rs ∧ seg.any (fun c => c = 61) = true)) ∧
    (Argon2Schema.Decode (asB "$argon2i$m=1,t=1,p=1$AAAA$AAAA$A")).2 =
      some (.invalidStructure .tooMany) := by
  refine ⟨?_, ?_, ?_, by decide⟩
  · intro schema s h
    rcases s with - | ⟨c, s1⟩
    · rfl
    · have hc : ¬(c = 36) := by
        intro hc
        exact h (by simp [hc])
      simp [PHCSchema.Decode, hc]
  · intro schema s1 h
    simp [PHCSchema.Decode, h]
  · intro schema s inst h
    rcases s with - | ⟨c, s1⟩
    · simp [PHCSchema.Decode] at h
    · by_cases hc : c = 36
      · subst hc
        simp only [PHCSchema.Decode, eq_self_iff_true, if_true] at h
        by_cases hempty : (s1.splitOn 36).any (fun sub => sub = []) = true
        · rw [if_pos hempty] at h
          simp at h
        · rw [if_neg hempty] at h
          rcases hsplit : s1.splitOn 36 with - | ⟨fn, rest⟩
          · rw [hsplit] at h
            dsimp only at h
            simp at h
          · rw [hsplit] at h
            dsimp only at h
            by_cases hfn : schema.FunctionNames.any (fun n => n = fn) = true
            · rw [if_pos hfn] at h
              obtain ⟨h1, h2⟩ := decodeParamsAndTail_none_len schema _ inst rest h
              exact ⟨s1, fn, rest, rfl, hsplit, h1, h2⟩
            · rw [if_neg hfn] at h
              simp at h
      · simp [PHCSchema.Decode, hc] at h

/-- Witness for C7: the structural-error parts applied at concrete inputs. -/
theorem claim_C7_witness :
    Argon2Schema.Decode (asB "argon2i") =
      (emptyInstance, some (.invalidStructure .mustBegin)) ∧
    Argon2Schema.Decode (asB "$argon2i$$m=1") =
      (emptyInstance, some (.invalidStructure .consecutiveDollar)) :=
  ⟨claim_C7.1 Argon2Schema (asB "argon2i") (by decide),
   claim_C7.2.1 Argon2Schema (asB "argon2i$$m=1") (by decide)⟩

end Gophc

namespace Gophc

/-! ## Claim C8: the Argon2 schema -/

theorem decodeSaltHash_params (schema : PHCSchema) (inst0 : PHCInstance) :
    ∀ tail inst err, schema.decodeSaltHash inst0 tail = (inst, err) →
      inst.Parameters = inst0.Parameters := by
  intro tail inst err h
  rcases tail with - | ⟨salt, - | ⟨hash, rest2⟩⟩
  · simp only [PHCSchema.decodeSaltHash, Prod.mk.injEq] at h
    rw [← h.1]
  · simp only [PHCSchema.decodeSaltHash] at h
    rcases h1 : schema.Decoder salt with - | sb <;> rw [h1] at h <;> dsimp only at h <;>
      simp only [Prod.mk.injEq] at h <;> rw [← h.1]
  · simp only [PHCSchema.decodeSaltHash] at h
    rcases h1 : schema.Decoder salt with - | sb
    · rw [h1] at h
      dsimp only at h
      simp only [Prod.mk.injEq] at h
      rw [← h.1]
    · rw [h1] at h
      dsimp only at h
      rcases h2 : schema.Decoder hash with - | hb
      · rw [h2] at h
        dsimp only at h
        simp only [Prod.mk.injEq] at h
        rw [← h.1]
      · rw [h2] at h
        dsimp only at h
        by_cases h3 : rest2 = []
        · rw [if_pos h3] at h
          simp only [Prod.mk.injEq] at h
          rw [← h.1]
        · rw [if_neg h3] at h
          simp only [Prod.mk.injEq] at h
          rw [← h.1]

/-- A decode without error reached `matchParameters` with a parsed list whose
pairs all have `IsSet = true`, and the instance carries its result. -/
theorem decode_none_matchParams (schema : PHCSchema) (s : List Nat) (inst : PHCInstance)
    (h : schema.Decode s = (inst, none)) :
    ∃ parsed, (∀ p ∈ parsed, p.IsSet = true) ∧
      schema.matchParameters schema.ParameterDescriptions parsed = .ok inst.Parameters := by
  rcases s with - | ⟨c, s1⟩
  · simp [PHCSchema.Decode] at h
  · by_cases hc : c = 36
    · subst hc
      simp only [PHCSchema.Decode, eq_self_iff_true, if_true] at h
      by_cases hempty : (s1.splitOn 36).any (fun sub => sub = []) = true
      · rw [if_pos hempty] at h
        simp at h
      · rw [if_neg hempty] at h
        rcases hsplit : s1.splitOn 36 with - | ⟨fn, rest⟩
        · rw [hsplit] at h
          dsimp only at h
          simp at h
        · rw [hsplit] at h
          dsimp only at h
          by_cases hfn : schema.FunctionNames.any (fun n => n = fn) = true
          · rw [if_pos hfn] at h
            -- dissect decodeParamsAndTail
            rcases rest with - | ⟨seg, rs⟩
            · simp only [PHCSchema.decodeParamsAndTail] at h
              rcases h2 : schema.matchParameters schema.ParameterDescriptions [] with e | fin
              · rw [h2] at h
                dsimp only at h
                simp at h
              · rw [h2] at h
                dsimp only at h
                have hp := decodeSaltHash_params schema _ _ _ _ h
                exact ⟨[], by simp, by rw [h2, hp]⟩
            · simp only [PHCSchema.decodeParamsAndTail] at h
              by_cases hany : seg.any (fun c => c = 61) = true
              · rw [if_pos hany] at h
                rcases h1 : parseParameters seg with e | parsed
                · rw [h1] at h
                  dsimp only at h
                  simp at h
                · rw [h1] at h
                  dsimp only at h
                  rcases h2 : schema.matchParameters schema.ParameterDescriptions parsed
                    with e | fin
                  · rw [h2] at h
                    dsimp only at h
                    simp at h
                  · rw [h2] at h
                    dsimp only at h
                    have hp := decodeSaltHash_params schema _ _ _ _ h
                    exact ⟨parsed, parseParameterList_isSet _ parsed h1, by rw [h2, hp]⟩
              · rw [if_neg hany] at h
                rcases h2 : schema.matchParameters schema.ParameterDescriptions [] with e | fin
                · rw [h2] at h
                  dsimp only at h
                  simp at h
                · rw [h2] at h
                  dsimp only at h
                  have hp := decodeSaltHash_params schema _ _ _ _ h
                  exact ⟨[], by simp, by rw [h2, hp]⟩
          · rw [if_neg hfn] at h
            simp at h
    · simp [PHCSchema.Decode, hc] at h

end Gophc

namespace Gophc

/-- When every validator of the descriptor list accepts every value, a
required descriptor whose name never occurs among the parsed names makes the
positional matching fail with a non-optional-parameter-missing error. -/
theorem matchParameters_required_missing (schema : PHCSchema) :
    ∀ (ds : List PHCParameterDescription) (ps : List ParameterValuePair)
      (d : PHCParameterDescription),
      d ∈ ds → d.Optional = false → d.Name ∉ ps.map ParameterValuePair.Name →
      (∀ d' ∈ ds, ∀ v, d'.GetValueValidatorFunc v = true) →
      ∃ nm, schema.matchParameters ds ps = .error (.nonOptionalParameterMissing nm)
  | [], ps, d, hmem, _, _, _ => absurd hmem (List.not_mem_nil d)
  | d0 :: ds, [], d, hmem, hreq, hnames, hval => by
    by_cases hopt : d0.Optional = true
    · have hd : d ∈ ds := by
        rcases List.mem_cons.mp hmem with rfl | hd
        · rw [hopt] at hreq
          simp at hreq
        · exact hd
      obtain ⟨nm, hnm⟩ := matchParameters_required_missing schema ds [] d hd hreq hnames
        (fun d' hd' => hval d' (List.mem_cons_of_mem _ hd'))
      refine ⟨nm, ?_⟩
      simp [PHCSchema.matchParameters, hopt, hnm]
    · have hopt' : d0.Optional = false := by
        simpa using hopt
      exact ⟨d0.Name, by simp [PHCSchema.matchParameters, hopt']⟩
  | d0 :: ds, p :: ps, d, hmem, hreq, hnames, hval => by
    by_cases hname : d0.Name = p.Name
    · have hd : d ∈ ds := by
        rcases List.mem_cons.mp hmem with rfl | hd
        · exact absurd (by rw [hname]; exact List.mem_cons_self _ _ : d.Name ∈ (p :: ps).map ParameterValuePair.Name) hnames
        · exact hd
      have hnames' : d.Name ∉ ps.map ParameterValuePair.Name := fun hx =>
        hnames (by simpa using Or.inr hx)
      obtain ⟨nm, hnm⟩ := matchParameters_required_missing schema ds ps d hd hreq hnames'
        (fun d' hd' => hval d' (List.mem_cons_of_mem _ hd'))
      refine ⟨nm, ?_⟩
      have hv := hval d0 (List.mem_cons_self _ _) p.Value
      simp [PHCSchema.matchParameters, hname, hv, hnm]
    · by_cases hopt : d0.Optional = true
      · have hd : d ∈ ds := by
          rcases List.mem_cons.mp hmem with rfl | hd
          · rw [hopt] at hreq
            simp at hreq
          · exact hd
        obtain ⟨nm, hnm⟩ := matchParameters_required_missing schema ds (p :: ps) d hd hreq
          hnames (fun d' hd' => hval d' (List.mem_cons_of_mem _ hd'))
        refine ⟨nm, ?_⟩
        simp [PHCSchema.matchParameters, hname, hopt, hnm]
      · have hopt' : d0.Optional = false := by
          simpa using hopt
        exact ⟨d0.Name, by simp [PHCSchema.matchParameters, hname, hopt']⟩

end Gophc

namespace Gophc

/-- Every Argon2 schema descriptor accepts every value (`NoValueValidator`). -/
theorem argon2_validators_trivial :
    ∀ d' ∈ Argon2Schema.ParameterDescriptions, ∀ v, d'.GetValueValidatorFunc v = true := by
  intro d' hd' v
  simp only [Argon2Schema, List.mem_cons, List.not_mem_nil, or_false] at hd'
  rcases hd' with rfl | rfl | rfl | rfl <;> rfl

/-- C8: the Argon2 schema declares `v` optional with default `"16"` and
`m`, `t`, `p` required: an error-free `DecodeArgon2` whose `v` parameter was
not present in the input yields `Version = 16`; a parsed parameter list
missing `m`, `t` or `p` fails the positional matching with a
non-optional-parameter-missing error (concretely surfaced by `DecodeArgon2`);
and `ValidateParameters` accepts a version only if it is 16 or 19. -/
theorem claim_C8 :
    (∀ (s : List Nat) (inst : PHCInstance) (phc : Argon2PHC),
      Argon2Schema.Decode s = (inst, none) → DecodeArgon2 s = .ok phc →
      ∀ r, inst.Parameters.get? 0 = some r → r.IsSet = false → phc.Version = 16) ∧
    (∀ (ps : List ParameterValuePair) (nm : List Nat),
      (nm = mNameB ∨ nm = tNameB ∨ nm = pNameB) →
      nm ∉ ps.map ParameterValuePair.Name →
      ∃ nm', Argon2Schema.matchParameters Argon2Schema.ParameterDescriptions ps =
        .error (.nonOptionalParameterMissing nm')) ∧
    (∀ phc : Argon2PHC, phc.ValidateParameters = none →
      phc.Version = 16 ∨ phc.Version = 19) ∧
    (∀ phc : Argon2PHC, isValidArgon2Variant phc.Variant = true →
      phc.Version ≠ 16 → phc.Version ≠ 19 →
      phc.ValidateParameters = some (.parameterValueValidation vNameB)) ∧
    (DecodeArgon2 (asB "$argon2i$m=8,t=1,p=1") = .ok ⟨argon2iB, 16, 8, 1, 1⟩) ∧
    (DecodeArgon2 (asB "$argon2i$t=1,p=1") = .error (.nonOptionalParameterMissing mNameB)) ∧
    (DecodeArgon2 (asB "$argon2i$m=8,p=1") = .error (.nonOptionalParameterMissing tNameB)) ∧
    (DecodeArgon2 (asB "$argon2i$m=8,t=1") = .error (.nonOptionalParameterMissing pNameB)) := by
  refine ⟨?_, ?_, ?_, ?_, by decide, by decide, by decide, by decide⟩
  · -- defaulted v gives Version 16
    intro s inst phc hdec hok r hr hset
    obtain ⟨parsed, hpset, hmatch⟩ := decode_none_matchParams Argon2Schema s inst hdec
    obtain ⟨hlen, hidx⟩ := matchParameters_ok_shape Argon2Schema _ parsed _ hpset hmatch
    have h0 := hidx 0 ⟨vNameB, [49, 54], true, some NoValueValidator⟩ r rfl hr
    obtain ⟨-, hdef, -⟩ := h0
    obtain ⟨hreq, -⟩ := hdef hset
    -- dissect DecodeArgon2
    rw [DecodeArgon2, hdec] at hok
    dsimp only at hok
    have hlen4 : inst.Parameters.length = 4 := by
      rw [hlen]
      rfl
    rcases hp : inst.Parameters with - | ⟨p0, - | ⟨p1, - | ⟨p2, - | ⟨p3, - | ⟨p4, tl⟩⟩⟩⟩⟩ <;>
      rw [hp] at hlen4 <;> simp at hlen4
    rw [hp] at hok
    dsimp only at hok
    have hp0 : p0 = r := by
      rw [hp] at hr
      simpa using hr
    subst hp0
    rw [hreq] at hok
    simp only [argon2FromStringParams] at hok
    split_ifs at hok with hvar
    have hv16 : decodeNoneZeroUnsignedString
        (⟨vNameB, [49, 54], false⟩ : ParameterValuePair).Value false 32 = some 16 := by
      decide
    rw [hv16] at hok
    dsimp only at hok
    rcases hm : decodeNoneZeroUnsignedString p1.Value false 32 with - | m
    · rw [hm] at hok
      dsimp only at hok
      exact absurd hok (by simp)
    · rw [hm] at hok
      dsimp only at hok
      rcases ht : decodeNoneZeroUnsignedString p2.Value false 32 with - | t
      · rw [ht] at hok
        dsimp only at hok
        exact absurd hok (by simp)
      · rw [ht] at hok
        dsimp only at hok
        rcases hq : decodeNoneZeroUnsignedString p3.Value false 8 with - | p
        · rw [hq] at hok
          dsimp only at hok
          exact absurd hok (by simp)
        · rw [hq] at hok
          dsimp only at hok
          simp only [Except.ok.injEq] at hok
          rw [← hok]
  · -- required m/t/p missing
    intro ps nm hnm hnot
    rcases hnm with rfl | rfl | rfl
    · exact matchParameters_required_missing Argon2Schema _ ps
        ⟨mNameB, [], false, some NoValueValidator⟩ (by simp [Argon2Schema]) rfl hnot
        argon2_validators_trivial
    · exact matchParameters_required_missing Argon2Schema _ ps
        ⟨tNameB, [], false, some NoValueValidator⟩ (by simp [Argon2Schema]) rfl hnot
        argon2_validators_trivial
    · exact matchParameters_required_missing Argon2Schema _ ps
        ⟨pNameB, [], false, some NoValueValidator⟩ (by simp [Argon2Schema]) rfl hnot
        argon2_validators_trivial
  · -- accepted version is 16 or 19
    intro phc h
    simp only [Argon2PHC.ValidateParameters] at h
    split_ifs at h with h1 h2 h3 h4 h5
    have h2' : isValidArgon2Version phc.Version = true := by
      simpa using h2
    have h2'' : 16 = phc.Version ∨ 19 = phc.Version := by
      simpa [isValidArgon2Version, Argon2Versions] using h2'
    rcases h2'' with h | h
    · exact Or.inl h.symm
    · exact Or.inr h.symm
  · -- any other version is rejected
    intro phc hvar h16 h19
    have hv : isValidArgon2Version phc.Version = false := by
      simp [isValidArgon2Version, Argon2Versions]
      omega
    simp [Argon2PHC.ValidateParameters, hvar, hv]

/-- Witness for C8: the version characterization applied at a concrete
instance, and the missing-`m` matching applied at a concrete parsed list. -/
theorem claim_C8_witness :
    ((⟨argon2iB, 19, 8, 1, 1⟩ : Argon2PHC).ValidateParameters = none →
      (19 : Nat) = 16 ∨ (19 : Nat) = 19) ∧
    (∃ nm', Argon2Schema.matchParameters Argon2Schema.ParameterDescriptions
      [⟨tNameB, [49], true⟩, ⟨pNameB, [49], true⟩] =
        .error (.nonOptionalParameterMissing nm')) :=
  ⟨fun h => claim_C8.2.2.1 ⟨argon2iB, 19, 8, 1, 1⟩ h,
   claim_C8.2.1 [⟨tNameB, [49], true⟩, ⟨pNameB, [49], true⟩] mNameB (Or.inl rfl) (by decide)⟩

end Gophc

namespace Gophc

namespace ArgonRegex

/-! ## Lemmas for claim C2: the regex codec round trip -/

theorem dropTok_append : ∀ (a b : List Nat), dropTok a (a ++ b) = some b
  | [], b => by simp [dropTok]
  | x :: a, b => by
    simp [dropTok, dropTok_append a b]

theorem foldr_base10 : ∀ ds : List Nat, ds.foldr (fun d y => 10 * y + d) 0 = Nat.ofDigits 10 ds
  | [] => rfl
  | d :: ds => by
    simp only [List.foldr_cons, foldr_base10 ds, Nat.ofDigits_cons]
    omega

theorem bytesVal_decBytes (n : Nat) : bytesVal (decBytes n) = n := by
  by_cases hn : n = 0
  · subst hn
    rfl
  · simp only [decBytes, if_neg hn, bytesVal, List.foldl_reverse, List.foldr_map]
    have : ((Nat.digits 10 n).foldr (fun x y => 10 * y + (48 + x - 48)) 0) =
        ((Nat.digits 10 n).foldr (fun d y => 10 * y + d) 0) := by
      congr 1
      funext x y
      omega
    rw [this, foldr_base10, Nat.ofDigits_digits]

theorem decBytes_zero : decBytes 0 = [48] := rfl

theorem decBytes_eq_of_ne_zero (n : Nat) (hn : n ≠ 0) :
    decBytes n = ((Nat.digits 10 n).map (fun d => 48 + d)).reverse := by
  unfold decBytes
  rw [if_neg hn]

theorem decBytes_digits (n : Nat) : ∀ x ∈ decBytes n, isDigitByte x = true := by
  intro x hx
  by_cases hn : n = 0
  · subst hn
    rw [decBytes_zero] at hx
    simp only [List.mem_singleton] at hx
    subst hx
    rfl
  · rw [decBytes_eq_of_ne_zero n hn] at hx
    simp only [List.mem_reverse, List.mem_map] at hx
    obtain ⟨d, hd, rfl⟩ := hx
    have := Nat.digits_lt_base (by norm_num) hd
    simp only [isDigitByte, decide_eq_true_eq]
    omega

theorem decBytes_ne_nil (n : Nat) : decBytes n ≠ [] := by
  by_cases hn : n = 0
  · subst hn
    simp [decBytes]
  · simp only [decBytes, if_neg hn, ne_eq, List.reverse_eq_nil_iff, List.map_eq_nil_iff]
    exact Nat.digits_ne_nil_iff_ne_zero.mpr hn

theorem decBytes_head_ne (n : Nat) (hn : n ≠ 0) (c : Nat)
    (hc : (decBytes n).head? = some c) : c ≠ 48 := by
  rw [decBytes_eq_of_ne_zero n hn, List.head?_reverse] at hc
  have hnil : Nat.digits 10 n ≠ [] := Nat.digits_ne_nil_iff_ne_zero.mpr hn
  rw [List.getLast?_map] at hc
  rw [List.getLast?_eq_getLast _ hnil] at hc
  simp only [Option.map_some', Option.some.injEq] at hc
  have := Nat.getLast_digit_ne_zero 10 hn
  omega

theorem decBytes_len_le (k n : Nat) (hk : 1 ≤ k) (hn : n < 10 ^ k) :
    (decBytes n).length ≤ k := by
  by_cases h0 : n = 0
  · subst h0
    simpa [decBytes] using hk
  · simp only [decBytes, if_neg h0, List.length_reverse, List.length_map]
    rw [Nat.digits_len 10 n (by norm_num) h0]
    have := Nat.log_lt_of_lt_pow h0 hn
    omega

theorem parsePHCNum_spec (k n : Nat) (hk : 1 ≤ k) (hn : n < 10 ^ k) (r : List Nat)
    (hr : ∀ c, r.head? = some c → isDigitByte c = false) :
    parsePHCNum k (decBytes n ++ r) = some (n, r) := by
  obtain ⟨ht, hd⟩ := takeWhile_dropWhile_append isDigitByte (decBytes n) r
    (decBytes_digits n) hr
  simp only [parsePHCNum, ht, hd]
  rw [if_neg (decBytes_ne_nil n)]
  rw [if_neg (by simpa using decBytes_len_le k n hk hn)]
  rw [if_neg ?_, bytesVal_decBytes]
  rintro ⟨hhead, hlen⟩
  by_cases h0 : n = 0
  · subst h0
    exact hlen (by simp [decBytes])
  · exact decBytes_head_ne n h0 48 hhead rfl

/-- The alphabet-run predicate used by the group parsers. -/
theorem b64run_append (v r : List Nat) (hv : validB64 v = true)
    (hr : ∀ c, r.head? = some c → (alphabetIdx c).isSome = false) :
    (v ++ r).takeWhile (fun c => (alphabetIdx c).isSome) = v ∧
    (v ++ r).dropWhile (fun c => (alphabetIdx c).isSome) = r :=
  takeWhile_dropWhile_append _ v r (by simpa [validB64, List.all_eq_true] using hv) hr

theorem parseVariant_argon2id (r : List Nat) :
    parseVariant (argon2idB ++ r) = some (argon2idB, r) := by
  simp [parseVariant, dropTok_append]

theorem parseVariant_argon2i (r : List Nat) :
    parseVariant (argon2iB ++ (36 :: r)) = some (argon2iB, 36 :: r) := by
  have h1 : dropTok argon2idB (argon2iB ++ (36 :: r)) = none := by
    simp [argon2idB, argon2iB, dropTok]
  simp [parseVariant, h1, dropTok_append]

theorem parseVariant_argon2d (r : List Nat) :
    parseVariant (argon2dB ++ (36 :: r)) = some (argon2dB, 36 :: r) := by
  have h1 : dropTok argon2idB (argon2dB ++ (36 :: r)) = none := by
    simp [argon2idB, argon2dB, dropTok]
  have h2 : dropTok argon2iB (argon2dB ++ (36 :: r)) = none := by
    simp [argon2iB, argon2dB, dropTok]
  simp [parseVariant, h1, h2, dropTok_append]

end ArgonRegex

end Gophc

namespace Gophc

namespace ArgonRegex

theorem parseOptGroup_present (lit v r : List Nat) (maxLen : Nat)
    (hv : validB64 v = true) (hlen : v.length ≤ maxLen)
    (hr : ∀ c, r.head? = some c → (alphabetIdx c).isSome = false) :
    parseOptGroup lit maxLen (lit ++ (v ++ r)) = some (v, r) := by
  obtain ⟨ht, hd⟩ := b64run_append v r hv hr
  simp only [parseOptGroup, dropTok_append, ht, hd]
  rw [if_pos hlen]

theorem parseOptGroup_absent (lit s : List Nat) (maxLen : Nat)
    (h : dropTok lit s = none) : parseOptGroup lit maxLen s = some ([], s) := by
  simp [parseOptGroup, h]

theorem dropTok_keyid_data (x : List Nat) : dropTok keyidLitB (dataLitB ++ x) = none := by
  simp [keyidLitB, dataLitB, dropTok]

theorem dropTok_keyid_dollar (x : List Nat) : dropTok keyidLitB (36 :: x) = none := by
  simp [keyidLitB, dropTok]

theorem dropTok_keyid_nil : dropTok keyidLitB [] = none := rfl

theorem dropTok_data_dollar (x : List Nat) : dropTok dataLitB (36 :: x) = none := by
  simp [dataLitB, dropTok]

theorem dropTok_data_nil : dropTok dataLitB [] = none := rfl

theorem parseSaltHash_nil : parseSaltHash [] = some ([], []) := rfl

theorem parseSaltHash_salt_only (salt : List Nat) (hs : validB64 salt = true)
    (h1 : 11 ≤ salt.length) (h2 : salt.length ≤ 64) :
    parseSaltHash (36 :: salt) = some (salt, []) := by
  have hrun := b64run_append salt [] hs (fun c hc => by simp at hc)
  rw [List.append_nil] at hrun
  obtain ⟨ht, hd⟩ := hrun
  simp only [parseSaltHash, eq_self_iff_true, if_true, ht, hd]
  rw [if_pos ⟨h1, h2⟩]

theorem parseSaltHash_salt_hash (salt hash : List Nat) (hs : validB64 salt = true)
    (h1 : 11 ≤ salt.length) (h2 : salt.length ≤ 64) (hh : validB64 hash = true)
    (h3 : 16 ≤ hash.length) (h4 : hash.length ≤ 86) :
    parseSaltHash (36 :: (salt ++ 36 :: hash)) = some (salt, hash) := by
  obtain ⟨ht, hd⟩ := b64run_append salt (36 :: hash) hs
    (fun c hc => by
      injection hc with hc
      subst hc
      decide)
  have hrun2 := b64run_append hash [] hh (fun c hc => by simp at hc)
  rw [List.append_nil] at hrun2
  obtain ⟨ht2, hd2⟩ := hrun2
  simp only [parseSaltHash, eq_self_iff_true, if_true, ht, hd, ht2, hd2]
  rw [if_pos ⟨h1, h2⟩]
  rw [if_pos ⟨h3, h4, trivial⟩]

theorem parseVariant_spec (v r : List Nat) (hv : isValidArgon2Variant v = true) :
    parseVariant (v ++ (mLitB ++ r)) = some (v, mLitB ++ r) := by
  have hm : mLitB ++ r = 36 :: (109 :: 61 :: r) := by
    simp [mLitB]
  simp only [isValidArgon2Variant, Argon2Variants, List.any_cons, List.any_nil,
    Bool.or_eq_true, decide_eq_true_eq, Bool.false_eq_true, or_false] at hv
  rcases hv with h | h | h
  · rw [← h]
    exact parseVariant_argon2id _
  · rw [← h, hm]
    exact parseVariant_argon2i _
  · rw [← h, hm]
    exact parseVariant_argon2d _

end ArgonRegex

end Gophc

namespace Gophc

namespace ArgonRegex

theorem parseOptGroup_keyid (keyid rest : List Nat) (hkb : validB64 keyid = true)
    (hk11 : keyid.length ≤ 11)
    (hrest : rest = [] ∨ (∃ x, rest = 36 :: x) ∨ (∃ x, rest = dataLitB ++ x)) :
    parseOptGroup keyidLitB 11 ((if keyid ≠ [] then keyidLitB ++ keyid else []) ++ rest) =
      some (keyid, rest) := by
  by_cases hK : keyid = []
  · subst hK
    rw [if_neg (by simp), List.nil_append]
    apply parseOptGroup_absent
    rcases hrest with rfl | ⟨x, rfl⟩ | ⟨x, rfl⟩
    · exact dropTok_keyid_nil
    · exact dropTok_keyid_dollar x
    · exact dropTok_keyid_data x
  · rw [if_pos hK, List.append_assoc]
    apply parseOptGroup_present _ _ _ _ hkb hk11
    intro c hc
    rcases hrest with rfl | ⟨x, rfl⟩ | ⟨x, rfl⟩
    · simp at hc
    · injection hc with hc
      subst hc
      decide
    · rw [show dataLitB ++ x = 44 :: (100 :: 97 :: 116 :: 97 :: 61 :: x) from by simp [dataLitB]]
        at hc
      injection hc with hc
      subst hc
      decide

theorem parseOptGroup_data (dataV tail : List Nat) (hdb : validB64 dataV = true)
    (hd43 : dataV.length ≤ 43)
    (htail0 : tail = [] ∨ ∃ x, tail = 36 :: x) :
    parseOptGroup dataLitB 43 ((if dataV ≠ [] then dataLitB ++ dataV else []) ++ tail) =
      some (dataV, tail) := by
  by_cases hD : dataV = []
  · subst hD
    rw [if_neg (by simp), List.nil_append]
    apply parseOptGroup_absent
    rcases htail0 with rfl | ⟨x, rfl⟩
    · exact dropTok_data_nil
    · exact dropTok_data_dollar x
  · rw [if_pos hD, List.append_assoc]
    apply parseOptGroup_present _ _ _ _ hdb hd43
    intro c hc
    rcases htail0 with rfl | ⟨x, rfl⟩
    · simp at hc
    · injection hc with hc
      subst hc
      decide

/-- Decoding the exact byte string the encoder produces recovers the value.
The input term is written with the same grouping the encoder emits. -/
theorem DecodeArgon2PHC_build (phc : Argon2PHC) (tail : List Nat)
    (hvar : isValidArgon2Variant phc.Variant = true)
    (hmem : phc.Memory < 10 ^ 10) (hiter : phc.Iterations < 10 ^ 10)
    (hpar : phc.Parallelism < 10 ^ 3)
    (hkb : validB64 phc.KeyId = true) (hk11 : phc.KeyId.length ≤ 11)
    (hdb : validB64 phc.Data = true) (hd43 : phc.Data.length ≤ 43)
    (htail : parseSaltHash tail = some (phc.Salt, phc.Hash))
    (htail0 : tail = [] ∨ ∃ x, tail = 36 :: x) :
    DecodeArgon2PHC (36 :: phc.Variant ++ mLitB ++ decBytes phc.Memory ++ tLitB ++
      decBytes phc.Iterations ++ pLitB ++ decBytes phc.Parallelism ++
      (if phc.KeyId ≠ [] then keyidLitB ++ phc.KeyId else []) ++
      (if phc.Data ≠ [] then dataLitB ++ phc.Data else []) ++ tail) = some phc := by
  have hrest2 : (if phc.Data ≠ [] then dataLitB ++ phc.Data else []) ++ tail = [] ∨
      (∃ x, (if phc.Data ≠ [] then dataLitB ++ phc.Data else []) ++ tail = 36 :: x) ∨
      (∃ x, (if phc.Data ≠ [] then dataLitB ++ phc.Data else []) ++ tail = dataLitB ++ x) := by
    by_cases hD : phc.Data = []
    · rw [if_neg (by simp [hD]), List.nil_append]
      rcases htail0 with rfl | ⟨x, rfl⟩
      · exact Or.inl rfl
      · exact Or.inr (Or.inl ⟨x, rfl⟩)
    · rw [if_pos hD, List.append_assoc]
      exact Or.inr (Or.inr ⟨phc.Data ++ tail, rfl⟩)
  have hPhead : ∀ c,
      ((if phc.KeyId ≠ [] then keyidLitB ++ phc.KeyId else []) ++
        ((if phc.Data ≠ [] then dataLitB ++ phc.Data else []) ++ tail)).head? = some c →
      isDigitByte c = false := by
    intro c hc
    by_cases hK : phc.KeyId = []
    · rw [if_neg (by simp [hK]), List.nil_append] at hc
      rcases hrest2 with he | ⟨x, hx⟩ | ⟨x, hx⟩
      · rw [he] at hc
        simp at hc
      · rw [hx] at hc
        injection hc with hc
        subst hc
        decide
      · rw [hx, show dataLitB ++ x = 44 :: (100 :: 97 :: 116 :: 97 :: 61 :: x) from by
          simp [dataLitB]] at hc
        injection hc with hc
        subst hc
        decide
    · rw [if_pos hK, show (keyidLitB ++ phc.KeyId) ++
          ((if phc.Data ≠ [] then dataLitB ++ phc.Data else []) ++ tail) =
          44 :: (107 :: 101 :: 121 :: 105 :: 100 :: 61 :: (phc.KeyId ++
            ((if phc.Data ≠ [] then dataLitB ++ phc.Data else []) ++ tail))) from by
        simp [keyidLitB]] at hc
      injection hc with hc
      subst hc
      decide
  have hlit44 : ∀ (lit z : List Nat), lit.head? = some 44 →
      (∀ c, (lit ++ z).head? = some c → isDigitByte c = false) := by
    intro lit z hlit c hc
    rcases lit with - | ⟨l0, ls⟩
    · simp at hlit
    · injection hlit with hlit
      subst hlit
      injection hc with hc
      subst hc
      decide
  simp only [List.cons_append, List.append_assoc]
  simp only [DecodeArgon2PHC, eq_self_iff_true, if_true]
  rw [parseVariant_spec phc.Variant _ hvar]
  dsimp only
  rw [dropTok_append]
  dsimp only
  rw [parsePHCNum_spec 10 phc.Memory (by norm_num) hmem _ (hlit44 tLitB _ rfl)]
  dsimp only
  rw [dropTok_append]
  dsimp only
  rw [parsePHCNum_spec 10 phc.Iterations (by norm_num) hiter _ (hlit44 pLitB _ rfl)]
  dsimp only
  rw [dropTok_append]
  dsimp only
  rw [parsePHCNum_spec 3 phc.Parallelism (by norm_num) hpar _ hPhead]
  dsimp only
  rw [parseOptGroup_keyid phc.KeyId _ hkb hk11 hrest2]
  dsimp only
  rw [parseOptGroup_data phc.Data tail hdb hd43 htail0]
  dsimp only
  rw [htail]

/-- Decoding inverts the encoder on every value within the grammar bounds. -/
theorem EncodeString_decode (phc : Argon2PHC) (hWF : WF phc = true) (s : List Nat)
    (hEnc : EncodeString phc = some s) : DecodeArgon2PHC s = some phc := by
  simp only [WF, Bool.and_eq_true, Bool.or_eq_true, decide_eq_true_eq] at hWF
  obtain ⟨⟨⟨⟨⟨⟨⟨⟨⟨hvar, hmem⟩, hiter⟩, hpar⟩, hkb⟩, hk11⟩, hdb⟩, hd43⟩, hsalt⟩, hhash⟩ := hWF
  simp only [EncodeString] at hEnc
  by_cases werr : (writeSaltAndHash phc.Salt phc.Hash).err = true
  · rw [if_pos werr] at hEnc
    simp at hEnc
  · rw [if_neg werr] at hEnc
    simp only [Option.some.injEq] at hEnc
    rw [← hEnc]
    rcases hsalt with hsE | ⟨hsb, hs1, hs2⟩
    · by_cases hh0 : phc.Hash = []
      · have hw : writeSaltAndHash phc.Salt phc.Hash = ⟨[], 0, false⟩ := by
          rw [hsE, hh0]
          rfl
        rw [hw]
        exact DecodeArgon2PHC_build phc [] hvar hmem hiter hpar hkb hk11 hdb hd43
          (by rw [hsE, hh0]; exact parseSaltHash_nil) (Or.inl rfl)
      · exfalso
        apply werr
        unfold writeSaltAndHash
        rw [if_pos hsE, if_pos hh0]
    · have hsne : phc.Salt ≠ [] := by
        intro h
        rw [h] at hs1
        simp at hs1
      have hw : writeSaltAndHash phc.Salt phc.Hash =
          ⟨(36 :: phc.Salt) ++ (if phc.Hash ≠ [] then 36 :: phc.Hash else []),
           ((36 :: phc.Salt) ++ (if phc.Hash ≠ [] then 36 :: phc.Hash else [])).length,
           false⟩ := by
        unfold writeSaltAndHash
        rw [if_neg hsne]
      rw [hw]
      by_cases hh0 : phc.Hash = []
      · dsimp only
        rw [if_neg (show ¬(phc.Hash ≠ []) from by simp [hh0]), List.append_nil]
        exact DecodeArgon2PHC_build phc (36 :: phc.Salt) hvar hmem hiter hpar hkb hk11 hdb hd43
          (by rw [hh0]; exact parseSaltHash_salt_only phc.Salt hsb hs1 hs2)
          (Or.inr ⟨phc.Salt, rfl⟩)
      · rcases hhash with hhE | ⟨hhb, hh1, hh2⟩
        · exact absurd hhE hh0
        · dsimp only
          rw [if_pos hh0]
          exact DecodeArgon2PHC_build phc ((36 :: phc.Salt) ++ (36 :: phc.Hash)) hvar hmem
            hiter hpar hkb hk11 hdb hd43
            (by
              rw [List.cons_append]
              exact parseSaltHash_salt_hash phc.Salt phc.Hash hsb hs1 hs2 hhb hh1 hh2)
            (Or.inr ⟨phc.Salt ++ 36 :: phc.Hash, by rw [List.cons_append]⟩)

end ArgonRegex

/-- Claim C2: for every PHC string in the canonical (minimal, no-default,
ordered) encoding — a string the encoder produces from an in-bounds value —
that the Argon2 decoder accepts, re-encoding the decoded value reproduces the
string exactly; in particular, decoding the concrete string
$argon2i$m=120,t=5000,p=2$4fXXG0spB92WPB1NitT8/OH0VKI$BwUgJHHQaynE+a4nZrYRzOllGSjjxuxNXxyNRUtI6Dlw/zlbt6PzOL8Onfqs6TcG
with DecodeArgon2PHC and re-encoding with EncodeString yields the identical
string. -/
theorem claim_C2 :
    (∀ (s : List Nat) (phc : ArgonRegex.Argon2PHC),
      ArgonRegex.Canonical s → ArgonRegex.DecodeArgon2PHC s = some phc →
      ArgonRegex.EncodeString phc = some s) ∧
    (∀ phc : ArgonRegex.Argon2PHC,
      ArgonRegex.DecodeArgon2PHC
        (asB "$argon2i$m=120,t=5000,p=2$4fXXG0spB92WPB1NitT8/OH0VKI$BwUgJHHQaynE+a4nZrYRzOllGSjjxuxNXxyNRUtI6Dlw/zlbt6PzOL8Onfqs6TcG") =
        some phc →
      ArgonRegex.EncodeString phc =
        some (asB "$argon2i$m=120,t=5000,p=2$4fXXG0spB92WPB1NitT8/OH0VKI$BwUgJHHQaynE+a4nZrYRzOllGSjjxuxNXxyNRUtI6Dlw/zlbt6PzOL8Onfqs6TcG")) := by
  constructor
  · rintro s phc ⟨phc0, hWF, hE⟩ hD
    have hd0 := ArgonRegex.EncodeString_decode phc0 hWF s hE
    rw [hd0, Option.some.injEq] at hD
    rw [← hD]
    exact hE
  · intro phc hD
    have he : ArgonRegex.DecodeArgon2PHC
        (asB "$argon2i$m=120,t=5000,p=2$4fXXG0spB92WPB1NitT8/OH0VKI$BwUgJHHQaynE+a4nZrYRzOllGSjjxuxNXxyNRUtI6Dlw/zlbt6PzOL8Onfqs6TcG") =
        some ⟨asB "argon2i", 120, 5000, 2, [], [],
          asB "4fXXG0spB92WPB1NitT8/OH0VKI",
          asB "BwUgJHHQaynE+a4nZrYRzOllGSjjxuxNXxyNRUtI6Dlw/zlbt6PzOL8Onfqs6TcG"⟩ := by
      decide
    rw [he, Option.some.injEq] at hD
    rw [← hD]
    have h1 : ArgonRegex.decBytes 120 = [49, 50, 48] := by
      simp [ArgonRegex.decBytes, Nat.digits_def']
    have h2 : ArgonRegex.decBytes 5000 = [53, 48, 48, 48] := by
      simp [ArgonRegex.decBytes, Nat.digits_def']
    have h3 : ArgonRegex.decBytes 2 = [50] := by
      simp [ArgonRegex.decBytes, Nat.digits_def']
    simp only [ArgonRegex.EncodeString, h1, h2, h3]
    decide

/-- Witness instantiating C2 at the concrete string of the claim. -/
theorem claim_C2_witness :
    ArgonRegex.EncodeString ⟨asB "argon2i", 120, 5000, 2, [], [],
      asB "4fXXG0spB92WPB1NitT8/OH0VKI",
      asB "BwUgJHHQaynE+a4nZrYRzOllGSjjxuxNXxyNRUtI6Dlw/zlbt6PzOL8Onfqs6TcG"⟩ =
    some (asB "$argon2i$m=120,t=5000,p=2$4fXXG0spB92WPB1NitT8/OH0VKI$BwUgJHHQaynE+a4nZrYRzOllGSjjxuxNXxyNRUtI6Dlw/zlbt6PzOL8Onfqs6TcG") :=
  claim_C2.2 ⟨asB "argon2i", 120, 5000, 2, [], [],
    asB "4fXXG0spB92WPB1NitT8/OH0VKI",
    asB "BwUgJHHQaynE+a4nZrYRzOllGSjjxuxNXxyNRUtI6Dlw/zlbt6PzOL8Onfqs6TcG"⟩ (by decide)

end Gophc
